import Mathlib

/-!
Verification of the `imgcmp` perceptual image-comparison library.

The Rust sources (`src/lib/src/image.rs`, `image_processing.rs`, `dct.rs`,
`lib.rs`) are shallowly embedded below.  Machine integers (`u8`, `u32`,
`u64`) are modelled as `ℕ` with explicit `% 2^w` wherever the source can
overflow or truncate; fallible Rust functions returning `anyhow::Result`
are modelled with `Except String`; a Rust panic (index out of bounds,
division by zero) is modelled with `Option` where a claim depends on it.
The `f32` arithmetic of the source is modelled as exact arithmetic in an
arbitrary linearly ordered field `K` (with `⌊·⌋`/`⌈·⌉` for `floor`/`ceil`),
except where a claim hinges on rounding, in which case a separate model of
IEEE binary32 round-to-nearest-even (`f32round` below) is evaluated.
The transcendental constants used by the source (`cos`, `π`, `√2`) enter as
parameters `cosf`, `piK`, `sqrt2K`; theorems that depend on their values
instantiate `K := ℝ` with the genuine `Real.cos`, `Real.pi`, `Real.sqrt 2`.
-/

namespace Imgcmp

/-- A pixel is the ordered list of channel bytes (`type Pixel = Vec<u8>` in
`image.rs`); bytes are modelled as `ℕ` (well-formedness constrains them
below `256`). -/
abbrev Pixel := List ℕ

/-- `struct Image` from `image.rs`: width, height, channels-per-pixel and
the row-major pixel array. -/
structure Image where
  width : ℕ
  height : ℕ
  channels_per_pixel : ℕ
  pixels : List Pixel
  deriving Repr, DecidableEq

namespace Image

/-- `Image::from` (`image.rs` lines 16–31): reject empty buffer / zero
width / zero channels, compute `num_pixels = (len as u32) / channels` and
`height = num_pixels / width`, and take `num_pixels` consecutive
`channels_per_pixel`-byte slices.  The `as u32` cast of the buffer length
is the `% 2^32`. -/
def fromBytes (raw_image : List ℕ) (width : ℕ) (channels_per_pixel : ℕ) :
    Except String Image :=
  if raw_image = [] ∨ width = 0 ∨ channels_per_pixel = 0 then
    .error "Invalid parameters passed"
  else
    let num_pixels := (raw_image.length % 2 ^ 32) / channels_per_pixel
    let height := num_pixels / width
    .ok { width := width, height := height,
          channels_per_pixel := channels_per_pixel,
          pixels := (List.range num_pixels).map
            (fun i => (raw_image.drop (i * channels_per_pixel)).take channels_per_pixel) }

/-- `Image::from_rgb` (`image.rs` lines 34–44).  The height computation
`raw_pixels.len() as u32 / width` is an unguarded integer division: for
`width = 0` it panics in Rust, modelled here by `none`.  The `as u32`
cast of the slice length is the `% 2^32`. -/
def from_rgb (raw_pixels : List (ℕ × ℕ × ℕ)) (width : ℕ) : Option Image :=
  if width = 0 then none
  else
    some { width := width, height := (raw_pixels.length % 2 ^ 32) / width,
           channels_per_pixel := 3,
           pixels := raw_pixels.map (fun p => [p.1, p.2.1, p.2.2]) }

/-- `Image::from_rgba` (`image.rs` lines 47–57), same unguarded division
and `as u32` length cast as `from_rgb`. -/
def from_rgba (raw_pixels : List (ℕ × ℕ × ℕ × ℕ)) (width : ℕ) : Option Image :=
  if width = 0 then none
  else
    some { width := width, height := (raw_pixels.length % 2 ^ 32) / width,
           channels_per_pixel := 4,
           pixels := raw_pixels.map (fun p => [p.1, p.2.1, p.2.2.1, p.2.2.2]) }

/-- `Image::get_pixel` (`image.rs` lines 59–62): `pixels[y*width + x]`.
An out-of-range Rust index panics; here it yields `[]`, and every theorem
that touches pixel contents keeps the index in range. -/
def get_pixel (img : Image) (x y : ℕ) : Pixel :=
  img.pixels.getD (y * img.width + x) []

/-- `Image::apply` (`image.rs` lines 83–90): rewrite each pixel visited by
the `y < height, x < width` double loop (exactly the indices below
`width*height`) with `f`; pixels beyond `width*height` are never visited. -/
def apply (img : Image) (f : Pixel → Pixel) : Image :=
  { img with
    pixels := img.pixels.mapIdx
      (fun i p => if i < img.width * img.height then f p else p) }

/-- Well-formedness of an image as the rest of the pipeline needs it:
positive dimensions and channel count, exactly `width*height` pixels, each
pixel holding exactly `channels_per_pixel` bytes below 256. -/
def WF (img : Image) : Prop :=
  0 < img.width ∧ 0 < img.height ∧ 0 < img.channels_per_pixel ∧
    img.pixels.length = img.width * img.height ∧
    ∀ p ∈ img.pixels, p.length = img.channels_per_pixel ∧ ∀ v ∈ p, v < 256

instance (img : Image) : Decidable img.WF := by
  unfold WF; infer_instance

end Image

/-- `into_grayscale` (`image_processing.rs` lines 67–77): replace each
visited pixel by the single byte `⌊sum of channels / channel count⌋`.  The
Rust code computes the average in `f32` and casts with `as u8`
(saturating); for channel sums below `2^24` the `f32` quotient floors to
the integer quotient, so the byte is `min (sum / len) 255`. -/
def into_grayscale (image : Image) : Image :=
  image.apply (fun pixel => [min (pixel.sum / pixel.length) 255])

/-- `nalgebra::DMatrix` with entries in `K`: dimensions plus a total entry
function (entries outside `i < nrows, j < ncols` are irrelevant junk; the
operations below only consult in-range entries, mirroring the storage). -/
structure DMatrix (K : Type) where
  nrows : ℕ
  ncols : ℕ
  entry : ℕ → ℕ → K

namespace DMatrix

variable {K : Type}

/-- `DMatrix::from_fn(nrows, ncols, f)`. -/
def from_fn (nrows ncols : ℕ) (f : ℕ → ℕ → K) : DMatrix K :=
  { nrows := nrows, ncols := ncols, entry := f }

/-- `DMatrix::from_row_slice(nrows, ncols, s)`: entry `(i,j)` is
`s[i*ncols + j]`. -/
def from_row_slice (nrows ncols : ℕ) (s : List K) (dflt : K) : DMatrix K :=
  { nrows := nrows, ncols := ncols,
    entry := fun i j => s.getD (i * ncols + j) dflt }

/-- Number of elements, `Matrix::len()`. -/
def cells (m : DMatrix K) : ℕ := m.nrows * m.ncols

/-- The elements of the matrix in nalgebra's iteration order: column-major
(storage order), column `j = 0` first, each column top to bottom.  This is
the order `Matrix::fold` and `Matrix::iter` visit. -/
def colMajorList (m : DMatrix K) : List K :=
  (List.range m.ncols).flatMap (fun j => (List.range m.nrows).map (fun i => m.entry i j))

/-- Sum of all entries (`f32` accumulation modelled exactly, so the
iteration order is irrelevant and a double `Finset` sum is used). -/
def total [AddCommMonoid K] (m : DMatrix K) : K :=
  ∑ i ∈ Finset.range m.nrows, ∑ j ∈ Finset.range m.ncols, m.entry i j

/-- `Matrix::mean()` = sum of entries / number of entries. -/
def mean [DivisionRing K] (m : DMatrix K) : K :=
  m.total / (m.cells : K)

/-- `Matrix::resize(r2, c2, val)`: keep entry `(i,j)` where it existed,
fill new entries with `val`. -/
def resize (m : DMatrix K) (r2 c2 : ℕ) (val : K) : DMatrix K :=
  { nrows := r2, ncols := c2,
    entry := fun i j => if i < m.nrows ∧ j < m.ncols then m.entry i j else val }

/-- Writing one entry (`m[(i0, j0)] = v`).  In Rust this panics when
`(i0, j0)` is out of range; the only write in the sources is at `(0,0)`,
which is in range exactly when the matrix is non-empty, and every theorem
that reaches it assumes `1 ≤` the reduced dimension. -/
def set (m : DMatrix K) (i0 j0 : ℕ) (v : K) : DMatrix K :=
  { m with entry := fun i j => if i = i0 ∧ j = j0 then v else m.entry i j }

/-- Entry-wise `Matrix::map`. -/
def map {K' : Type} (m : DMatrix K) (f : K → K') : DMatrix K' :=
  { nrows := m.nrows, ncols := m.ncols, entry := fun i j => f (m.entry i j) }

theorem colMajorList_length (m : DMatrix K) :
    m.colMajorList.length = m.ncols * m.nrows := by
  simp [colMajorList, Function.comp_def, List.map_const', List.sum_replicate,
    smul_eq_mul, Nat.mul_comm]

end DMatrix

section Dct

variable {K : Type} [LinearOrderedField K]

/-- The `ndarray::Array2<DMatrix<f32>>` of basis matrices: the grid
dimension together with the entry map.  `dct_basis.dim()` is `dim`. -/
structure DctBasis (K : Type) where
  dim : ℕ
  mats : ℕ → ℕ → DMatrix K

/-- `calc_dct_basis_at` (`dct.rs` lines 15–21), verbatim:
`cos(2π·(l/2dim)·(n+0.5)) * cos(2π·(k/2dim)·(m+0.5))`.
`cosf` and `piK` stand for `f32::cos` and `std::f32::consts::PI`. -/
def calc_dct_basis_at (cosf : K → K) (piK : K) (dim k l m n : ℕ) : K :=
  let two_pi := 2 * piK
  let two_dim := 2 * (dim : K)
  let horiz_cos := cosf (two_pi * ((l : K) / two_dim) * ((n : K) + 1 / 2))
  let vert_cos := cosf (two_pi * ((k : K) / two_dim) * ((m : K) + 1 / 2))
  horiz_cos * vert_cos

/-- `calc_dct_basis` (`dct.rs` lines 8–13). -/
def calc_dct_basis (cosf : K → K) (piK : K) (dim : ℕ) : DctBasis K :=
  { dim := dim,
    mats := fun k l =>
      DMatrix.from_fn dim dim (fun m n => calc_dct_basis_at cosf piK dim k l m n) }

/-- `calc_dct_coefficients` (`dct.rs` lines 24–42): an
`image.width × image.height` matrix whose `(k,l)` entry is
`0.25·c(k)·c(l) · Σ_{m<width} Σ_{n<height} pixel(m,n)[0] · basis[k,l][m,n]`,
with `c(0) = 1/√2` (the `f32` constant `SQRT_2` is the parameter
`sqrt2K`) and `c(x) = 1` otherwise. -/
def calc_dct_coefficients (sqrt2K : K) (image : Image) (dct_basis : DctBasis K) :
    DMatrix K :=
  let c : ℕ → K := fun x => if x = 0 then 1 / sqrt2K else 1
  DMatrix.from_fn image.width image.height (fun k l =>
    let a := (1 / 4 : K) * c k * c l
    let dct_mat := dct_basis.mats k l
    a * ∑ m ∈ Finset.range image.width, ∑ n ∈ Finset.range image.height,
      ((image.get_pixel m n).headD 0 : K) * dct_mat.entry m n)

/-- `reduce_dct_coefficients` (`dct.rs` lines 46–54): resize to
`R × R`, zero the `(0,0)` (DC) entry, take the mean, and binarize with
`0` when the entry is `< mean`, `1` otherwise.  (The `(0,0)` write panics
in Rust when `R = 0`; theorems touching this function assume `1 ≤ R`.) -/
def reduce_dct_coefficients (coefficients : DMatrix K) (dct_reduced_dimension : ℕ) :
    DMatrix ℕ :=
  let reduced :=
    (coefficients.resize dct_reduced_dimension dct_reduced_dimension 0).set 0 0 0
  let average_coefficient := reduced.mean
  reduced.map (fun c => if c < average_coefficient then 0 else 1)

end Dct

/-- Population count (`u64::count_ones`). -/
def popcount : ℕ → ℕ
  | 0 => 0
  | n + 1 => (n + 1) % 2 + popcount ((n + 1) / 2)
decreasing_by exact Nat.div_lt_self (Nat.succ_pos n) (by omega)

/-- `hash_coefficients` (`dct.rs` lines 58–66): refuse matrices of more
than 64 elements, then fold over the entries in storage (column-major)
order, OR-ing `c << index` (as `u64`, hence the `% 2^64`) into the hash. -/
def hash_coefficients (coefficients : DMatrix ℕ) : Except String ℕ :=
  if 64 < coefficients.cells then
    .error "Matrices of more than 64 elements are not allowed"
  else
    .ok (coefficients.colMajorList.foldl
      (fun p c => (p.1 + 1, p.2 ||| (c <<< p.1 % 2 ^ 64))) ((0, 0) : ℕ × ℕ)).2

/-- `compare_hashes` (`dct.rs` lines 69–72): Hamming distance as the
population count of the XOR.  (`count_ones ≤ 64 < 256`, so the `as u8`
cast is lossless.) -/
def compare_hashes (hash1 hash2 : ℕ) : ℕ :=
  popcount (hash1 ^^^ hash2)

section Scale

variable {K : Type} [LinearOrderedField K] [FloorRing K]

/-- Rust's `f.floor() as u32` for the non-negative values arising here. -/
def natFloor (q : K) : ℕ := (Int.floor q).toNat

/-- Rust's `f.ceil() as u32` for the non-negative values arising here. -/
def natCeil (q : K) : ℕ := (Int.ceil q).toNat

/-- `average_pixels` (`image_processing.rs` lines 47–65): start from a
zero vector of the first pixel's length, add the pixels channel-wise, and
divide each channel by the pixel count (`f32` divide then `floor`, i.e.
integer division in the exact model).  Rust panics when `pixels` is empty
(`pixels[0]`) or when a later pixel is longer than the first; the theorems
below only apply it to non-empty lists of equal-length pixels. -/
def average_pixels (pixels : List Pixel) : List ℕ :=
  let channels_per_pixel := (pixels.headD []).length
  let sums := pixels.foldl
    (fun acc p => acc.mapIdx (fun i a => a + p.getD i 0))
    (List.replicate channels_per_pixel 0)
  sums.map (fun s => s / pixels.length)

/-- The source footprint of destination pixel `(new_x, new_y)` in
`sample_pixels` (`image_processing.rs` lines 30–45): the integer rectangle
`[⌊new_x/sx⌋, ⌈(new_x+1)/sx⌉) × [⌊new_y/sy⌋, ⌈(new_y+1)/sy⌉)`, visited
x-outer, y-inner. -/
def footprint (image : Image) (new_x new_y : ℕ) (scale_x scale_y : K) :
    List Pixel :=
  let left := natFloor ((new_x : K) / scale_x)
  let right := natCeil (((new_x : K) + 1) / scale_x)
  let top := natFloor ((new_y : K) / scale_y)
  let bottom := natCeil (((new_y : K) + 1) / scale_y)
  (List.range' left (right - left)).flatMap (fun x =>
    (List.range' top (bottom - top)).map (fun y => image.get_pixel x y))

/-- `sample_pixels` = box-average over the footprint. -/
def sample_pixels (image : Image) (new_x new_y : ℕ) (scale_x scale_y : K) :
    List ℕ :=
  average_pixels (footprint image new_x new_y scale_x scale_y)

/-- `scale_image` (`image_processing.rs` lines 4–28): reject zero target
dimensions, return a clone when the dimensions are unchanged, otherwise
box-average every destination pixel (row-major) and rebuild through
`Image::from`.  The `channel as u8` push truncates, hence `% 256`. -/
def scale_image (image : Image) (new_width new_height : ℕ) :
    Except String Image :=
  if new_width = 0 ∨ new_height = 0 then
    .error "Passed dimensions should not be zero"
  else if new_width = image.width ∧ new_height = image.height then
    .ok image
  else
    let scale_x : K := (new_width : K) / (image.width : K)
    let scale_y : K := (new_height : K) / (image.height : K)
    let scaled_data : List ℕ :=
      (List.range new_height).flatMap (fun new_y =>
        (List.range new_width).flatMap (fun new_x =>
          (sample_pixels image new_x new_y scale_x scale_y).map (· % 256)))
    Image.fromBytes scaled_data new_width image.channels_per_pixel

end Scale

section Orchestrator

variable {K : Type} [LinearOrderedField K] [FloorRing K]

/-- `Config` (`lib.rs` lines 10–17): `dct_dimension` and
`dct_reduced_dimension` are `u32`, `allowed_distance` is `u8`; all three
are modelled as `ℕ`. -/
structure Config where
  dct_dimension : ℕ
  dct_reduced_dimension : ℕ
  allowed_distance : ℕ

/-- `hash_image` (`lib.rs` lines 32–49): scale to the basis dimension,
grayscale, project on the DCT basis, reduce/binarize, pack.  Failures of
the scaling and packing stages are wrapped with their context strings. -/
def hash_image (sqrt2K : K) (image : Image)
    (dct_basis : DctBasis K) (dct_reduced_dimension : ℕ) : Except String ℕ :=
  match scale_image (K := K) image dct_basis.dim dct_basis.dim with
  | .error e => .error ("Failed to scale image: " ++ e)
  | .ok shrank_image =>
    let shrank_grayscale_image := into_grayscale shrank_image
    let dct_coefficients :=
      calc_dct_coefficients sqrt2K shrank_grayscale_image dct_basis
    let dct_reduced_coefficients :=
      reduce_dct_coefficients dct_coefficients dct_reduced_dimension
    match hash_coefficients dct_reduced_coefficients with
    | .error e => .error ("Failed to calculate hash: " ++ e)
    | .ok hash => .ok hash

/-- `compare_images` (`lib.rs` lines 19–30): build the basis, hash both
images (wrapping failures with which image failed), and compare the
Hamming distance against the allowed distance.  Note: the function
performs no validation of `config`. -/
def compare_images (cosf : K → K) (piK sqrt2K : K)
    (left_image right_image : Image) (config : Config) : Except String Bool :=
  let dct_basis_signals := calc_dct_basis cosf piK config.dct_dimension
  match hash_image sqrt2K left_image dct_basis_signals
      config.dct_reduced_dimension with
  | .error e => .error ("Failed to create hash for first image: " ++ e)
  | .ok left_hash =>
    match hash_image sqrt2K right_image dct_basis_signals
        config.dct_reduced_dimension with
    | .error e => .error ("Failed to create hash for second image: " ++ e)
    | .ok right_hash =>
      .ok (decide (compare_hashes left_hash right_hash ≤ config.allowed_distance))

end Orchestrator

/-! ### Specification-side and auxiliary definitions -/

section SpecDefs

variable {K : Type} [LinearOrderedField K]

/-- The zeroed-DC top-left sub-block of §4.6 of the spec: `C'[0,0] = 0`,
`C'[i,j] = C[i,j]` elsewhere. -/
def dcZeroed (C : DMatrix K) (i j : ℕ) : K :=
  if i = 0 ∧ j = 0 then 0 else C.entry i j

/-- The mean `μ` of §4.6: the average of all `R·R` entries of the zeroed
sub-block, the zeroed DC term included. -/
def dcZeroedMean (C : DMatrix K) (R : ℕ) : K :=
  (∑ i ∈ Finset.range R, ∑ j ∈ Finset.range R, dcZeroed C i j) / ((R * R : ℕ) : K)

end SpecDefs

/-- The number encoded by a list of bits, least significant first. -/
def numOfBits : List ℕ → ℕ
  | [] => 0
  | c :: r => c + 2 * numOfBits r

/-- Round a rational to the nearest integer, ties to even (the rounding
of IEEE 754 binary arithmetic). -/
def rne (x : ℚ) : ℤ :=
  let f := Int.floor x
  let r := x - f
  if r < 1 / 2 then f
  else if 1 / 2 < r then f + 1
  else if f % 2 = 0 then f else f + 1

/-- The IEEE binary32 (`f32`) rounding of a positive rational in the
normal range: with `e = ⌊log₂ q⌋`, round the 24-bit significand
`q·2^(23-e)` to the nearest integer (ties to even) and scale back.
Non-positive inputs (never produced by the evaluations below) map to 0;
overflow and subnormals are outside the range of the values used. -/
def f32round (q : ℚ) : ℚ :=
  if q ≤ 0 then 0
  else
    let e := Int.log 2 q
    (rne (q * (2 : ℚ) ^ ((23 : ℤ) - e)) : ℚ) * (2 : ℚ) ^ (e - (23 : ℤ))

/-- The horizontal footprint bounds `(left, right)` computed by
`scale_image`/`sample_pixels` under the **actual `f32` semantics** of the
source: `scale_x = new_width as f32 / width as f32` (each conversion and
the division rounding to binary32), then
`left = (new_x as f32 / scale_x).floor()`,
`right = ((new_x + 1) as f32 / scale_x).ceil()`. -/
def sample_bounds32 (width new_width new_x : ℕ) : ℕ × ℕ :=
  let scale_x := f32round (f32round (new_width : ℚ) / f32round (width : ℚ))
  (natFloor (f32round (f32round (new_x : ℚ) / scale_x)),
    natCeil (f32round (f32round ((new_x : ℚ) + 1) / scale_x)))

/-! ### Constants for the DCT reference-vector check.

`refBlock` is the canonical 8×8 grayscale block of §8 scenario 4 (also the
fixture of the `calculate_dct_example` test) and `tz` the reference
coefficient table in tenths, indexed as the test's `from_column_slice`
does (entry `(k,l)` is the displayed table's row `l`, column `k`).  The
remaining definitions are verification-side rational/integer
approximations of the cosines `cos(π·j/16)`, scaled by `D = 2^30`, used
to bound the real-valued DCT coefficients by kernel computation. -/

/-- The 8×8 reference block, row-major, width 8. -/
def refBlock : List ℕ := [
  144, 139, 149, 155, 153, 155, 155, 155,
  151, 151, 151, 159, 156, 156, 156, 158,
  151, 156, 160, 162, 159, 151, 151, 151,
  158, 163, 161, 160, 160, 160, 160, 161,
  158, 160, 161, 162, 160, 155, 155, 156,
  161, 161, 161, 161, 160, 157, 157, 157,
  162, 162, 161, 160, 161, 157, 157, 157,
  162, 162, 161, 160, 163, 157, 158, 154]

/-- The image `Image::from(refBlock, 8, 1)` constructs. -/
def refImage : Image :=
  { width := 8, height := 8, channels_per_pixel := 1,
    pixels := refBlock.map (fun b => [b]) }

/-- The expected coefficients of the reference table, in tenths
(`12579` stands for `1257.9`), laid out row-major as displayed in the
spec; `tz k l` matches nalgebra's `from_column_slice` indexing of the
test's expected matrix. -/
def tzT : List ℤ := [
  12579, 23, -97, -41, 39, 6, -21, 7,
  -210, -153, -43, -27, 23, 35, 21, -31,
  -112, -76, -9, 41, 20, 34, 14, 9,
  -49, -58, 18, 11, 16, 27, 28, -7,
  1, -38, 5, 13, -14, 7, 10, 9,
  9, -16, 9, -3, -18, -3, 14, 8,
  -44, 27, -44, -15, -1, 11, 4, 19,
  -64, 38, -50, -26, 16, 6, 1, 15]

/-- Expected coefficient `(k,l)`, in tenths. -/
def tz (k l : ℕ) : ℤ := tzT.getD (l * 8 + k) 0

/-- Scaled approximations `cz j ≈ cos(π·j/16) · 2^30` for `j = 0..8`. -/
def czT : List ℤ := [1073741824, 1053110176, 992008094, 892783698,
  759250125, 596538995, 410903207, 209476638, 0]

/-- `cz j ≈ cos(π·j/16) · 2^30`. -/
def cz (j : ℕ) : ℤ := czT.getD j 0

/-- Reduce `t` to the index `j ≤ 8` with `cos(π·t/16) = ± cos(π·j/16)`. -/
def redIdx (t : ℕ) : ℕ :=
  let r := t % 32
  if r ≤ 8 then r
  else if r ≤ 16 then 16 - r
  else if r ≤ 24 then r - 16
  else 32 - r

/-- The sign in `cos(π·t/16) = redSign t · cos(π·redIdx t/16)`. -/
def redSign (t : ℕ) : ℤ :=
  let r := t % 32
  if r ≤ 8 then 1 else if r ≤ 24 then -1 else 1

/-- Scaled approximation of `cos(π·t/16) · 2^30` for arbitrary `t`. -/
def csz (t : ℕ) : ℤ := redSign t * cz (redIdx t)

/-- Reference pixel `(m,n)` (x = m, y = n) as an integer. -/
def pixZ (m n : ℕ) : ℤ := (refBlock.getD (n * 8 + m) 0 : ℤ)

/-- Scaled approximation (by `2^60`) of the cosine-weighted pixel sum of
DCT coefficient `(k,l)` of the reference block. -/
def SqZ (k l : ℕ) : ℤ :=
  ∑ m ∈ Finset.range 8, ∑ n ∈ Finset.range 8,
    pixZ m n * (csz (k * (2 * m + 1)) * csz (l * (2 * n + 1)))

/-- Scaled approximation (by `2^30`) of the normalisation `c(j)`:
`cz 4 ≈ (1/√2)·2^30` for `j = 0`, else `2^30`. -/
def aZ (j : ℕ) : ℤ := if j = 0 then cz 4 else 1073741824

/-- `(2^30)^4`, the combined scale of `aZ k · aZ l · SqZ k l`. -/
def D4 : ℤ := 1073741824 ^ 4

/-! ### Supporting lemmas -/

theorem mapIdx_eq_map_of_lt {α : Type} (l : List α) (f : α → α) (b : ℕ)
    (hb : l.length ≤ b) :
    l.mapIdx (fun i p => if i < b then f p else p) = l.map f := by
  apply List.ext_getElem
  · simp
  · intro i h1 h2
    simp only [List.getElem_mapIdx, List.getElem_map]
    rw [if_pos]
    simp only [List.length_mapIdx] at h1
    omega

theorem sum_div_le_255 (p : Pixel) (hp : ∀ v ∈ p, v < 256) :
    p.sum / p.length ≤ 255 := by
  rcases Nat.eq_zero_or_pos p.length with h | h
  · simp [List.length_eq_zero.mp h]
  · have hsum : p.sum ≤ 255 * p.length := by
      calc p.sum ≤ p.length * 255 := by
            apply List.sum_le_card_nsmul
            intro x hx; exact Nat.lt_succ_iff.mp (hp x hx)
        _ = 255 * p.length := Nat.mul_comm _ _
    calc p.sum / p.length ≤ 255 * p.length / p.length :=
          Nat.div_le_div_right hsum
      _ = 255 := Nat.mul_div_cancel 255 h

/-! ### C3: `Image::from` keeps the trailing partial row -/

/-- C3 (counterexample): `Image::from([0,0,0], width 2, 1 channel)`
succeeds with **3** pixels and `height = 1`, so the pixel count is `3`,
not `width · ⌊len/(c·w)⌋ = 2`: the trailing partial row is *not*
truncated, refuting the claimed invariant `pixel_count = width·height`. -/
theorem fromBytes_keeps_partial_row_counterexample :
    Image.fromBytes [0, 0, 0] 2 1 =
      .ok { width := 2, height := 1, channels_per_pixel := 1,
            pixels := [[0], [0], [0]] } ∧
    ¬ (3 = 2 * ((3 : ℕ) / (1 * 2))) := by
  constructor
  · rfl
  · decide

/-- C3 (amended): for a non-empty buffer, positive width and channel
count (and a buffer shorter than `2^32`, the `as u32` cast), `Image::from`
succeeds; the image keeps **all** `⌊len/c⌋` pixels (including any trailing
partial row), `height = ⌊⌊len/c⌋/w⌋` (possibly `0`), each pixel holds
exactly `c` bytes, and `width`/`channels_per_pixel` are positive. -/
theorem fromBytes_spec (raw : List ℕ) (w c : ℕ)
    (hraw : raw ≠ []) (hw : 0 < w) (hc : 0 < c) (hlen : raw.length < 2 ^ 32) :
    ∀ img, Image.fromBytes raw w c = .ok img →
      img.width = w ∧ img.channels_per_pixel = c ∧
      img.pixels.length = raw.length / c ∧
      img.height = raw.length / c / w ∧
      (∀ p ∈ img.pixels, p.length = c) ∧ 0 < img.width ∧
      0 < img.channels_per_pixel := by
  intro img himg
  rw [Image.fromBytes, if_neg (by simp [hraw, Nat.pos_iff_ne_zero.mp hw,
    Nat.pos_iff_ne_zero.mp hc])] at himg
  rw [Nat.mod_eq_of_lt hlen] at himg
  cases himg
  refine ⟨rfl, rfl, by simp, rfl, ?_, hw, hc⟩
  intro p hp
  simp only [List.mem_map, List.mem_range] at hp
  obtain ⟨i, hi, rfl⟩ := hp
  have hbound : (i + 1) * c ≤ raw.length := by
    calc (i + 1) * c ≤ raw.length / c * c :=
          Nat.mul_le_mul_right c hi
      _ ≤ raw.length := Nat.div_mul_le_self _ _
  rw [Nat.succ_mul] at hbound
  simp only [List.length_take, List.length_drop]
  omega

/-- Witness for `fromBytes_spec` at a concrete input. -/
theorem fromBytes_spec_witness :
    [5, 6, 7] ≠ ([] : List ℕ) ∧ 0 < 2 ∧ 0 < 1 ∧ 3 < 2 ^ 32 ∧
    ∀ img, Image.fromBytes [5, 6, 7] 2 1 = .ok img →
      img.width = 2 ∧ img.channels_per_pixel = 1 ∧
      img.pixels.length = 3 / 1 ∧ img.height = 3 / 1 / 2 ∧
      (∀ p ∈ img.pixels, p.length = 1) ∧ 0 < img.width ∧
      0 < img.channels_per_pixel :=
  ⟨by decide, by decide, by decide, by norm_num,
    fromBytes_spec [5, 6, 7] 2 1 (by decide) (by decide) (by decide)
      (by norm_num)⟩

/-! ### C9: the tuple constructors validate nothing -/

/-- C9: `from_rgb`/`from_rgba` perform no validation and succeed for every
input with positive width — for slices below the `u32` wrap of the
`len() as u32` cast the height is exactly `⌊len/w⌋`, and a buffer shorter
than one row simply yields `height = 0` — while `width = 0` hits the
unguarded `len / width` division (a panic, modelled by `none`);
`Image::from` instead rejects `width = 0` with an `InvalidInput`-style
error. -/
theorem tuple_constructors_unvalidated :
    (∀ ps w, 0 < w → List.length ps < 2 ^ 32 → Image.from_rgb ps w =
      some { width := w, height := ps.length / w, channels_per_pixel := 3,
             pixels := ps.map (fun p => [p.1, p.2.1, p.2.2]) }) ∧
    (∀ ps w, 0 < w → List.length ps < 2 ^ 32 → Image.from_rgba ps w =
      some { width := w, height := ps.length / w, channels_per_pixel := 4,
             pixels := ps.map (fun p => [p.1, p.2.1, p.2.2.1, p.2.2.2]) }) ∧
    (∀ ps w, 0 < w → List.length ps < w → Image.from_rgb ps w =
      some { width := w, height := 0, channels_per_pixel := 3,
             pixels := ps.map (fun p => [p.1, p.2.1, p.2.2]) }) ∧
    (∀ ps, Image.from_rgb ps 0 = none) ∧
    (∀ ps, Image.from_rgba ps 0 = none) ∧
    (∀ raw c, Image.fromBytes raw 0 c = .error "Invalid parameters passed") := by
  refine ⟨?_, ?_, ?_, ?_, ?_, ?_⟩
  · intro ps w hw hlen
    rw [Image.from_rgb, if_neg (Nat.pos_iff_ne_zero.mp hw),
      Nat.mod_eq_of_lt hlen]
  · intro ps w hw hlen
    rw [Image.from_rgba, if_neg (Nat.pos_iff_ne_zero.mp hw),
      Nat.mod_eq_of_lt hlen]
  · intro ps w hw hshort
    rw [Image.from_rgb, if_neg (Nat.pos_iff_ne_zero.mp hw),
      Nat.div_eq_of_lt (lt_of_le_of_lt (Nat.mod_le _ _) hshort)]
  · intro ps; rw [Image.from_rgb, if_pos rfl]
  · intro ps; rw [Image.from_rgba, if_pos rfl]
  · intro raw c; rw [Image.fromBytes, if_pos (by simp)]

/-- Witness for `tuple_constructors_unvalidated` at concrete inputs. -/
theorem tuple_constructors_unvalidated_witness :
    Image.from_rgb [(1, 2, 3)] 2 =
      some { width := 2, height := 0, channels_per_pixel := 3,
             pixels := [[1, 2, 3]] } ∧
    Image.from_rgb [(1, 2, 3)] 0 = none :=
  ⟨tuple_constructors_unvalidated.1 [(1, 2, 3)] 2 (by decide) (by norm_num),
    tuple_constructors_unvalidated.2.2.2.1 [(1, 2, 3)]⟩

/-! ### C2: grayscale conversion -/

/-- C2 (counterexample): converting a 1×1 RGB image to grayscale leaves
the `channels_per_pixel` field at `3` — `Image::apply` rewrites the pixel
vectors but never updates the field — even though the only pixel has
become the single byte `⌊(10+20+30)/3⌋ = 20`. -/
theorem into_grayscale_channels_counterexample :
    (into_grayscale
      { width := 1, height := 1, channels_per_pixel := 3,
        pixels := [[10, 20, 30]] }).channels_per_pixel = 3 ∧
    (into_grayscale
      { width := 1, height := 1, channels_per_pixel := 3,
        pixels := [[10, 20, 30]] }).pixels = [[20]] := by
  constructor
  · rfl
  · rfl

/-- C2 (amended): for an image whose pixel count is `width·height` and
whose channel values are bytes, `into_grayscale` keeps `width`, `height`
— and also the `channels_per_pixel` field, which is *not* reset to 1 —
while every pixel becomes the single byte `⌊sum of channels / channel
count⌋`. -/
theorem into_grayscale_spec (I : Image)
    (hlen : I.pixels.length = I.width * I.height)
    (hbytes : ∀ p ∈ I.pixels, ∀ v ∈ p, v < 256) :
    (into_grayscale I).width = I.width ∧
    (into_grayscale I).height = I.height ∧
    (into_grayscale I).channels_per_pixel = I.channels_per_pixel ∧
    (into_grayscale I).pixels = I.pixels.map (fun p => [p.sum / p.length]) := by
  refine ⟨rfl, rfl, rfl, ?_⟩
  show I.pixels.mapIdx _ = _
  rw [mapIdx_eq_map_of_lt I.pixels _ (I.width * I.height) (le_of_eq hlen)]
  apply List.map_congr_left
  intro p hp
  rw [Nat.min_eq_left (sum_div_le_255 p (hbytes p hp))]

/-- Witness for `into_grayscale_spec` at a concrete input. -/
theorem into_grayscale_spec_witness :
    ([[10, 20, 30], [255, 0, 100]] : List Pixel).length = 2 * 1 ∧
    (into_grayscale
      { width := 2, height := 1, channels_per_pixel := 3,
        pixels := [[10, 20, 30], [255, 0, 100]] }).pixels =
      [[20], [118]] :=
  ⟨by decide,
    by rw [(into_grayscale_spec
        { width := 2, height := 1, channels_per_pixel := 3,
          pixels := [[10, 20, 30], [255, 0, 100]] }
        (by decide) (by decide)).2.2.2]; rfl⟩

/-! ### C6: reduce & binarize -/

section ReduceBinarize

variable {K : Type} [LinearOrderedField K]

/-- C6: for `1 ≤ R ≤ dim C`, `reduce_dct_coefficients C R` is the `R×R`
bit matrix whose `(i,j)` entry is 1 exactly when the zeroed coefficient
`C'[i,j]` is `≥` the mean `μ` over all `R·R` zeroed entries. -/
theorem reduce_dct_coefficients_spec (C : DMatrix K) (R : ℕ)
    (_hR : 1 ≤ R) (hrows : R ≤ C.nrows) (hcols : R ≤ C.ncols) :
    (reduce_dct_coefficients C R).nrows = R ∧
    (reduce_dct_coefficients C R).ncols = R ∧
    ∀ i < R, ∀ j < R,
      (reduce_dct_coefficients C R).entry i j =
        if dcZeroedMean C R ≤ dcZeroed C i j then 1 else 0 := by
  have hentry : ∀ i < R, ∀ j < R,
      ((C.resize R R 0).set 0 0 0).entry i j = dcZeroed C i j := by
    intro i hi j hj
    simp only [DMatrix.set, DMatrix.resize, dcZeroed]
    by_cases h : i = 0 ∧ j = 0
    · rw [if_pos h, if_pos h]
    · rw [if_neg h, if_neg h, if_pos ⟨lt_of_lt_of_le hi hrows, lt_of_lt_of_le hj hcols⟩]
  have hmean : ((C.resize R R 0).set 0 0 0).mean = dcZeroedMean C R := by
    unfold DMatrix.mean DMatrix.total DMatrix.cells dcZeroedMean
    congr 1
    apply Finset.sum_congr rfl
    intro i hi
    apply Finset.sum_congr rfl
    intro j hj
    exact hentry i (Finset.mem_range.mp hi) j (Finset.mem_range.mp hj)
  refine ⟨rfl, rfl, ?_⟩
  intro i hi j hj
  show (if ((C.resize R R 0).set 0 0 0).entry i j <
      ((C.resize R R 0).set 0 0 0).mean then (0 : ℕ) else 1) = _
  rw [hentry i hi j hj, hmean]
  rcases lt_or_le (dcZeroed C i j) (dcZeroedMean C R) with h | h
  · rw [if_pos h, if_neg (by exact not_le.mpr h)]
  · rw [if_neg (not_lt.mpr h), if_pos h]

/-- Witness for `reduce_dct_coefficients_spec`: the 2×2 rational matrix
`[[4, 8], [12, 0]]` has zeroed sub-block `[[0, 8], [12, 0]]`, mean `5`,
and binarizes to `[[0, 1], [1, 0]]`. -/
theorem reduce_dct_coefficients_spec_witness :
    (1 ≤ 2 ∧ 2 ≤ 2 ∧ 2 ≤ 2) ∧
    (reduce_dct_coefficients
        (DMatrix.from_row_slice 2 2 ([4, 8, 12, 0] : List ℚ) 0) 2).entry 0 1 =
      (if dcZeroedMean (DMatrix.from_row_slice 2 2 ([4, 8, 12, 0] : List ℚ) 0) 2 ≤
          dcZeroed (DMatrix.from_row_slice 2 2 ([4, 8, 12, 0] : List ℚ) 0) 0 1
        then 1 else 0) ∧
    (reduce_dct_coefficients
        (DMatrix.from_row_slice 2 2 ([4, 8, 12, 0] : List ℚ) 0) 2).entry 0 1 = 1 := by
  refine ⟨⟨by decide, by decide, by decide⟩, ?_, ?_⟩
  · exact (reduce_dct_coefficients_spec
      (DMatrix.from_row_slice 2 2 ([4, 8, 12, 0] : List ℚ) 0) 2
      (by decide) (by decide) (by decide)).2.2 0 (by decide) 1 (by decide)
  · show (if (8 : ℚ) < _ then (0 : ℕ) else 1) = 1
    norm_num [DMatrix.mean, DMatrix.total, DMatrix.cells, DMatrix.set,
      DMatrix.resize, DMatrix.from_row_slice, Finset.sum_range_succ]

end ReduceBinarize

/-! ### C5: hash packing -/

theorem popcount_unfold (n : ℕ) :
    popcount n = if n = 0 then 0 else n % 2 + popcount (n / 2) := by
  cases n <;> simp [popcount]

theorem popcount_bit_add (c m : ℕ) (hc : c ≤ 1) :
    popcount (c + 2 * m) = c + popcount m := by
  rw [popcount_unfold]
  rcases Nat.eq_zero_or_pos (c + 2 * m) with h | h
  · have hc0 : c = 0 := by omega
    have hm0 : m = 0 := by omega
    simp [h, hc0, hm0, popcount]
  · rw [if_neg (by omega)]
    have h1 : (c + 2 * m) % 2 = c := by omega
    have h2 : (c + 2 * m) / 2 = m := by omega
    rw [h1, h2]

theorem popcount_numOfBits (l : List ℕ) (hl : ∀ c ∈ l, c ≤ 1) :
    popcount (numOfBits l) = l.sum := by
  induction l with
  | nil => simp [numOfBits, popcount]
  | cons c r ih =>
    rw [numOfBits, popcount_bit_add c _ (hl c (List.mem_cons_self c _)), List.sum_cons,
      ih (fun x hx => hl x (List.mem_cons_of_mem c hx))]

theorem testBit_numOfBits (l : List ℕ) (hl : ∀ c ∈ l, c ≤ 1) (i : ℕ) :
    (numOfBits l).testBit i = decide (l.getD i 0 = 1) := by
  induction l generalizing i with
  | nil => simp [numOfBits]
  | cons c r ih =>
    have hc := hl c (List.mem_cons_self c _)
    have hr := fun x hx => hl x (List.mem_cons_of_mem c hx)
    cases i with
    | zero =>
      rw [Nat.testBit_zero, numOfBits]
      have : (c + 2 * numOfBits r) % 2 = c := by omega
      rw [this]; rfl
    | succ i =>
      rw [Nat.testBit_add_one, numOfBits]
      have : (c + 2 * numOfBits r) / 2 = numOfBits r := by omega
      rw [this, ih hr i]; rfl

theorem numOfBits_lt (l : List ℕ) (hl : ∀ c ∈ l, c ≤ 1) :
    numOfBits l < 2 ^ l.length := by
  induction l with
  | nil => simp [numOfBits]
  | cons c r ih =>
    have hc := hl c (List.mem_cons_self c _)
    have := ih (fun x hx => hl x (List.mem_cons_of_mem c hx))
    rw [numOfBits, List.length_cons, pow_succ]
    omega

theorem lor_two_pow_eq_add (a k : ℕ) (h : a < 2 ^ k) :
    a ||| 2 ^ k = a + 2 ^ k := by
  apply Nat.eq_of_testBit_eq
  intro i
  rw [Nat.testBit_lor]
  have hadd : a + 2 ^ k = 2 ^ k * 1 + a := by omega
  rw [hadd, Nat.testBit_mul_pow_two_add 1 h i]
  rcases lt_trichotomy i k with hik | hik | hik
  · rw [if_pos hik, Nat.testBit_two_pow]
    simp [Nat.ne_of_gt hik]
  · subst hik
    rw [if_neg (lt_irrefl i), Nat.sub_self, Nat.testBit_two_pow]
    simp
  · rw [if_neg (by omega), Nat.testBit_two_pow]
    have h1 : a.testBit i = false :=
      Nat.testBit_eq_false_of_lt
        (lt_of_lt_of_le h (Nat.pow_le_pow_right (by norm_num) (le_of_lt hik)))
    have h2 : Nat.testBit 1 (i - k) = false := by
      apply Nat.testBit_eq_false_of_lt
      calc 1 < 2 ^ 1 := by norm_num
        _ ≤ 2 ^ (i - k) := Nat.pow_le_pow_right (by norm_num) (by omega)
    simp [h1, h2, Nat.ne_of_lt hik]

/-- The fold of `hash_coefficients`, started mid-way: from state
`(j, h)` with `h < 2^j`, folding a bit list `l` with `j + |l| ≤ 64`
appends the bits of `l` above bit `j`. -/
theorem hash_fold_spec (l : List ℕ) (j h : ℕ)
    (hl : ∀ c ∈ l, c ≤ 1) (hlen : j + l.length ≤ 64) (hh : h < 2 ^ j) :
    l.foldl (fun p c => (p.1 + 1, p.2 ||| (c <<< p.1 % 2 ^ 64))) ((j, h) : ℕ × ℕ) =
      (j + l.length, h + 2 ^ j * numOfBits l) := by
  induction l generalizing j h with
  | nil => simp [numOfBits]
  | cons c r ih =>
    have hc := hl c (List.mem_cons_self c _)
    have hr := fun x hx => hl x (List.mem_cons_of_mem c hx)
    rw [List.foldl_cons]
    have hshift : c <<< j % 2 ^ 64 = c * 2 ^ j := by
      rw [Nat.shiftLeft_eq]
      apply Nat.mod_eq_of_lt
      calc c * 2 ^ j ≤ 1 * 2 ^ j := Nat.mul_le_mul_right _ hc
        _ < 2 ^ 64 := by
            rw [one_mul]
            exact Nat.pow_lt_pow_right (by norm_num)
              (by simp only [List.length_cons] at hlen; omega)
    have hlor : h ||| c * 2 ^ j = h + c * 2 ^ j := by
      rcases Nat.le_one_iff_eq_zero_or_eq_one.mp hc with rfl | rfl
      · simp
      · rw [one_mul, lor_two_pow_eq_add h j hh]
    show List.foldl _ (j + 1, h ||| (c <<< j % 2 ^ 64)) r = _
    have hcb : c * 2 ^ j ≤ 2 ^ j := by
      calc c * 2 ^ j ≤ 1 * 2 ^ j := Nat.mul_le_mul_right _ hc
        _ = 2 ^ j := one_mul _
    rw [hshift, hlor,
      ih (j + 1) (h + c * 2 ^ j) hr
        (by simp only [List.length_cons] at hlen ⊢; omega)
        (by rw [pow_succ]; omega)]
    refine Prod.ext (by simp; omega) ?_
    show h + c * 2 ^ j + 2 ^ (j + 1) * numOfBits r =
      h + 2 ^ j * numOfBits (c :: r)
    rw [numOfBits, pow_succ]
    ring

/-- C5: `hash_coefficients` fails exactly on matrices of more than 64
cells; on a bit matrix of at most 64 cells it packs the cells in
column-major (storage) order — bit `i` of the hash is set iff the `i`-th
visited cell is `1`, all higher bits are `0`, so the popcount is the
number of 1-cells — and the 3×3 matrix that reads `[[0,1,0],[1,1,1],
[1,0,0]]` row-major packs to `0b010011110`. -/
theorem hash_coefficients_spec :
    (∀ B : DMatrix ℕ,
      (if 64 < B.cells then
          hash_coefficients B =
            .error "Matrices of more than 64 elements are not allowed"
        else (hash_coefficients B).isOk = true)) ∧
    (∀ B : DMatrix ℕ, ∀ hsh : ℕ,
      (∀ c ∈ B.colMajorList, c ≤ 1) → B.cells ≤ 64 →
      hash_coefficients B = .ok hsh →
        popcount hsh = B.colMajorList.sum ∧
        ∀ i : ℕ, hsh.testBit i = decide (B.colMajorList.getD i 0 = 1)) ∧
    hash_coefficients (DMatrix.from_row_slice 3 3
      [0, 1, 0, 1, 1, 1, 1, 0, 0] 0) = .ok 0b010011110 := by
  have hok : ∀ B : DMatrix ℕ, ∀ hsh : ℕ,
      (∀ c ∈ B.colMajorList, c ≤ 1) → B.cells ≤ 64 →
      hash_coefficients B = .ok hsh → hsh = numOfBits B.colMajorList := by
    intro B hsh hbits hcells hB
    rw [hash_coefficients, if_neg (by omega)] at hB
    have hlen : B.colMajorList.length ≤ 64 := by
      rw [DMatrix.colMajorList_length, Nat.mul_comm]
      exact hcells
    rw [hash_fold_spec B.colMajorList 0 0 hbits (by omega) (by norm_num)] at hB
    injection hB with hB2
    simp only [pow_zero, one_mul, Nat.zero_add] at hB2
    exact hB2.symm
  refine ⟨?_, ?_, ?_⟩
  · intro B
    by_cases h : 64 < B.cells
    · rw [if_pos h, hash_coefficients, if_pos h]
    · rw [if_neg h, hash_coefficients, if_neg h]; rfl
  · intro B hsh hbits hcells hB
    have := hok B hsh hbits hcells hB
    subst this
    exact ⟨popcount_numOfBits _ hbits, testBit_numOfBits _ hbits⟩
  · rfl

/-! ### Pipeline evaluation helpers -/

theorem numOfBits_replicate_one (n : ℕ) :
    numOfBits (List.replicate n 1) = 2 ^ n - 1 := by
  induction n with
  | zero => simp [numOfBits]
  | succ n ih =>
    rw [List.replicate_succ, numOfBits, ih, pow_succ]
    have := Nat.one_le_two_pow (n := n)
    omega

theorem colMajorList_const {K : Type} (m : DMatrix K) (c : K)
    (h : ∀ i < m.nrows, ∀ j < m.ncols, m.entry i j = c) :
    m.colMajorList = List.replicate (m.ncols * m.nrows) c := by
  rw [List.eq_replicate_iff]
  refine ⟨m.colMajorList_length, ?_⟩
  intro b hb
  simp only [DMatrix.colMajorList, List.mem_flatMap, List.mem_map,
    List.mem_range] at hb
  obtain ⟨j, hj, i, hi, rfl⟩ := hb
  exact h i hi j hj

/-- Reducing any 1×1 coefficient matrix to dimension `R ≥ 1` gives the
all-ones bit matrix: the resize pads with `0`, the DC write zeroes the
only original entry, so the zeroed block is identically `0`, its mean is
`0`, and `0 ≥ 0` binarizes every cell to `1`. -/
theorem reduce_of_1x1 {K : Type} [LinearOrderedField K] (co : DMatrix K)
    (hr : co.nrows = 1) (hc : co.ncols = 1) (R : ℕ) (_hR1 : 1 ≤ R) :
    (reduce_dct_coefficients co R).colMajorList = List.replicate (R * R) 1 := by
  have hzero : ∀ i j : ℕ, ((co.resize R R 0).set 0 0 0).entry i j = 0 := by
    intro i j
    simp only [DMatrix.set, DMatrix.resize, hr, hc]
    by_cases h : i = 0 ∧ j = 0
    · rw [if_pos h]
    · rw [if_neg h, if_neg (by omega)]
  have hmean : ((co.resize R R 0).set 0 0 0).mean = 0 := by
    unfold DMatrix.mean DMatrix.total
    simp only [hzero, Finset.sum_const_zero, zero_div]
  have hall : ∀ i < R, ∀ j < R, (reduce_dct_coefficients co R).entry i j = 1 := by
    intro i _ j _
    show (if ((co.resize R R 0).set 0 0 0).entry i j <
        ((co.resize R R 0).set 0 0 0).mean then (0 : ℕ) else 1) = 1
    rw [hzero, hmean, if_neg (lt_irrefl 0)]
  exact colMajorList_const _ 1 hall

/-- Hashing the reduction of a 1×1 coefficient matrix to `R×R`
(`R·R ≤ 64`) yields the all-ones hash `2^(R·R) - 1`. -/
theorem hash_of_1x1 {K : Type} [LinearOrderedField K] (co : DMatrix K)
    (hr : co.nrows = 1) (hc : co.ncols = 1) (R : ℕ) (hR1 : 1 ≤ R)
    (hR : R * R ≤ 64) :
    hash_coefficients (reduce_dct_coefficients co R) = .ok (2 ^ (R * R) - 1) := by
  rw [hash_coefficients, if_neg (by
    show ¬ 64 < R * R
    omega)]
  rw [reduce_of_1x1 co hr hc R hR1]
  rw [hash_fold_spec (List.replicate (R * R) 1) 0 0
    (by intro c hcm; rw [List.eq_of_mem_replicate hcm])
    (by simp; omega) (by norm_num)]
  rw [numOfBits_replicate_one]
  simp

/-- For a `1 × 1` well-sized image and any basis of dimension 1, the whole
hashing pipeline returns the all-ones `R·R`-bit hash. -/
theorem hash_image_1x1 {K : Type} [LinearOrderedField K] [FloorRing K]
    (sqrt2K : K) (p : ℕ) (basis : DctBasis K) (hdim : basis.dim = 1)
    (R : ℕ) (hR1 : 1 ≤ R) (hR : R * R ≤ 64) :
    hash_image sqrt2K
      { width := 1, height := 1, channels_per_pixel := 1, pixels := [[p]] }
      basis R = .ok (2 ^ (R * R) - 1) := by
  have h := hash_of_1x1
    (calc_dct_coefficients sqrt2K
      (into_grayscale
        { width := 1, height := 1, channels_per_pixel := 1, pixels := [[p]] })
      basis) rfl rfl R hR1 hR
  rw [hash_image, hdim, scale_image, if_neg (by norm_num), if_pos ⟨rfl, rfl⟩]
  show (match hash_coefficients (reduce_dct_coefficients
      (calc_dct_coefficients sqrt2K
        (into_grayscale
          { width := 1, height := 1, channels_per_pixel := 1, pixels := [[p]] })
        basis) R) with
    | .error e => Except.error ("Failed to calculate hash: " ++ e)
    | .ok hash => Except.ok hash) = Except.ok (2 ^ (R * R) - 1)
  rw [h]

/-! ### Footprint bounds under exact arithmetic -/

section FootprintBounds

variable {K : Type} [LinearOrderedField K] [FloorRing K]

/-- Under exact arithmetic, the box footprint of destination coordinate
`x < W` over a source extent `w > 0` is non-empty and stays strictly
below `w`: `⌊x/(W/w)⌋ < ⌈(x+1)/(W/w)⌉ ≤ w`. -/
theorem footprint_bounds (w W x : ℕ) (hw : 0 < w) (hW : 0 < W) (hx : x < W) :
    natFloor ((x : K) / ((W : K) / (w : K))) <
      natCeil (((x : K) + 1) / ((W : K) / (w : K))) ∧
    natCeil (((x : K) + 1) / ((W : K) / (w : K))) ≤ w := by
  set s : K := (W : K) / (w : K) with hs
  have hw' : (0 : K) < w := by exact_mod_cast hw
  have hW' : (0 : K) < W := by exact_mod_cast hW
  have hs0 : 0 < s := div_pos hW' hw'
  have hab : (x : K) / s < ((x : K) + 1) / s :=
    (div_lt_div_iff_of_pos_right hs0).mpr (by linarith)
  have hble : ((x : K) + 1) / s ≤ w := by
    rw [div_le_iff₀ hs0, hs]
    have hxW : (x : K) + 1 ≤ W := by exact_mod_cast hx
    calc (x : K) + 1 ≤ W := hxW
      _ = (w : K) * ((W : K) / (w : K)) := by field_simp
  have hfloor0 : 0 ≤ Int.floor ((x : K) / s) :=
    Int.floor_nonneg.mpr (div_nonneg (by positivity) (le_of_lt hs0))
  have hceil_le : Int.ceil (((x : K) + 1) / s) ≤ (w : ℤ) := by
    rw [Int.ceil_le]
    exact_mod_cast hble
  have hlt : Int.floor ((x : K) / s) < Int.ceil (((x : K) + 1) / s) := by
    by_contra hcon
    push_neg at hcon
    have h1 : (Int.ceil (((x : K) + 1) / s) : K) ≤ (x : K) / s :=
      le_trans (by exact_mod_cast hcon) (Int.floor_le _)
    have h2 := Int.le_ceil (((x : K) + 1) / s)
    linarith
  constructor
  · unfold natFloor natCeil
    omega
  · unfold natCeil
    omega

end FootprintBounds

/-- The number of source pixels in a footprint. -/
theorem footprint_length {K : Type} [LinearOrderedField K] [FloorRing K]
    (image : Image) (nx ny : ℕ) (sx sy : K) :
    (footprint image nx ny sx sy).length =
      (natCeil (((nx : K) + 1) / sx) - natFloor ((nx : K) / sx)) *
      (natCeil (((ny : K) + 1) / sy) - natFloor ((ny : K) / sy)) := by
  simp [footprint, Function.comp_def, List.map_const', List.sum_replicate,
    smul_eq_mul, Nat.mul_comm]

/-- Every pixel of an in-bounds footprint is one of the image's pixels. -/
theorem footprint_mem {K : Type} [LinearOrderedField K] [FloorRing K]
    (image : Image) (nx ny : ℕ) (sx sy : K)
    (hlen : image.pixels.length = image.width * image.height)
    (hxr : natCeil (((nx : K) + 1) / sx) ≤ image.width)
    (hyr : natCeil (((ny : K) + 1) / sy) ≤ image.height) :
    ∀ p ∈ footprint image nx ny sx sy, p ∈ image.pixels := by
  intro p hp
  simp only [footprint, List.mem_flatMap, List.mem_map, List.mem_range'_1] at hp
  obtain ⟨x, hxmem, y, hymem, rfl⟩ := hp
  have hx : x < image.width := by omega
  have hy : y < image.height := by omega
  have hidx : y * image.width + x < image.pixels.length := by
    rw [hlen]
    calc y * image.width + x < y * image.width + image.width := by omega
      _ = (y + 1) * image.width := by ring
      _ ≤ image.height * image.width := Nat.mul_le_mul_right _ (by omega)
      _ = image.width * image.height := Nat.mul_comm _ _
  rw [Image.get_pixel, List.getD_eq_getElem _ _ hidx]
  exact List.getElem_mem hidx

/-- `average_pixels` keeps the channel count of the first pixel. -/
theorem average_pixels_length (pixels : List Pixel) :
    (average_pixels pixels).length = (pixels.headD []).length := by
  unfold average_pixels
  rw [List.length_map]
  have hfold : ∀ (ps : List Pixel) (acc : List ℕ),
      (ps.foldl (fun acc p => acc.mapIdx (fun i a => a + p.getD i 0)) acc).length =
        acc.length := by
    intro ps
    induction ps with
    | nil => intro acc; rfl
    | cons q qs ih =>
      intro acc
      rw [List.foldl_cons, ih]
      simp
  rw [hfold]
  simp

/-- With well-formed inputs and positive target dimensions, `scale_image`
succeeds (exact-arithmetic model). -/
theorem scale_image_isOk {K : Type} [LinearOrderedField K] [FloorRing K]
    (image : Image) (hwf : image.WF) (W H : ℕ) (hW : 0 < W) (hH : 0 < H) :
    (scale_image (K := K) image W H).isOk = true := by
  obtain ⟨hw, hh, hc, hlen, hpix⟩ := hwf
  rw [scale_image, if_neg (by omega)]
  by_cases heq : W = image.width ∧ H = image.height
  · rw [if_pos heq]; rfl
  · rw [if_neg heq]
    set sx : K := (W : K) / (image.width : K) with hsx
    set sy : K := (H : K) / (image.height : K) with hsy
    have hxb := footprint_bounds (K := K) image.width W 0 hw hW hW
    have hyb := footprint_bounds (K := K) image.height H 0 hh hH hH
    rw [← hsx] at hxb
    rw [← hsy] at hyb
    have hfoot_ne : footprint image 0 0 sx sy ≠ [] := by
      intro hnil
      have hL := footprint_length image 0 0 sx sy
      rw [hnil] at hL
      simp only [List.length_nil] at hL
      exact absurd hL.symm
        (Nat.mul_ne_zero (by omega) (by omega))
    have hsample_ne : sample_pixels image 0 0 sx sy ≠ [] := by
      intro hnil
      have h1 : (sample_pixels image 0 0 sx sy).length = 0 := by
        rw [hnil]; rfl
      rw [sample_pixels, average_pixels_length] at h1
      have hhead : (footprint image 0 0 sx sy).headD [] ∈
          footprint image 0 0 sx sy := by
        rcases h : footprint image 0 0 sx sy with _ | ⟨q, qs⟩
        · exact absurd h hfoot_ne
        · simp
      have := (hpix _ (footprint_mem image 0 0 sx sy hlen
        (le_trans hxb.2 (le_refl _)) hyb.2 _ hhead)).1
      omega
    have hdata_ne : (List.range H).flatMap (fun new_y =>
        (List.range W).flatMap (fun new_x =>
          (sample_pixels image new_x new_y sx sy).map (· % 256))) ≠ [] := by
      intro hnil
      rw [List.flatMap_eq_nil_iff] at hnil
      have h0 := hnil _ (List.mem_range.mpr hH)
      rw [List.flatMap_eq_nil_iff] at h0
      have h00 := h0 _ (List.mem_range.mpr hW)
      rw [List.map_eq_nil_iff] at h00
      exact hsample_ne h00
    rw [Image.fromBytes, if_neg (by
      push_neg
      exact ⟨hdata_ne, by omega, by omega⟩)]
    rfl

/-! ### C7: scaling to the image's own dimensions -/

/-- C7 (counterexample): `Image::from` happily produces an image of
height 0 from a buffer shorter than one row, and scaling that image to
its own dimensions `(2, 0)` fails — `scale` rejects a zero dimension
before looking at the image — so `scale(I, width(I), height(I))` does
*not* succeed for every constructible image. -/
theorem scale_identity_counterexample :
    Image.fromBytes [5] 2 1 =
      .ok { width := 2, height := 0, channels_per_pixel := 1,
            pixels := [[5]] } ∧
    scale_image (K := ℚ)
      { width := 2, height := 0, channels_per_pixel := 1, pixels := [[5]] }
      2 0 = .error "Passed dimensions should not be zero" := by
  constructor
  · rfl
  · rfl

/-- C7 (amended): for every *well-formed* image (positive dimensions, as
required by the data model), scaling to the image's own dimensions
returns the image itself (the code clones before any resampling), and
`scale_image` fails exactly when the requested width or height is zero
(in the exact-arithmetic model of the `f32` footprint computation). -/
theorem scale_image_identity_spec {K : Type} [LinearOrderedField K]
    [FloorRing K] (I : Image) (hwf : I.WF) :
    scale_image (K := K) I I.width I.height = .ok I ∧
    ∀ w h : ℕ, ((scale_image (K := K) I w h).isOk = false ↔ w = 0 ∨ h = 0) := by
  have hw := hwf.1
  have hh := hwf.2.1
  constructor
  · rw [scale_image, if_neg (by omega), if_pos ⟨rfl, rfl⟩]
  · intro w h
    constructor
    · intro hfalse
      by_contra hcon
      push_neg at hcon
      have := scale_image_isOk (K := K) I hwf w h
        (by omega) (by omega)
      rw [hfalse] at this
      cases this
    · intro hzero
      rw [scale_image, if_pos hzero]
      rfl

/-- Witness for `scale_image_identity_spec` at a concrete 1×1 image. -/
theorem scale_image_identity_spec_witness :
    scale_image (K := ℚ)
      { width := 1, height := 1, channels_per_pixel := 1, pixels := [[5]] }
      1 1 =
      .ok { width := 1, height := 1, channels_per_pixel := 1,
            pixels := [[5]] } ∧
    ((scale_image (K := ℚ)
      { width := 1, height := 1, channels_per_pixel := 1, pixels := [[5]] }
      0 1).isOk = false ↔ (0 = 0 ∨ 1 = 0)) := by
  have h := scale_image_identity_spec (K := ℚ)
    { width := 1, height := 1, channels_per_pixel := 1, pixels := [[5]] }
    (by decide)
  exact ⟨h.1, h.2 0 1⟩

/-! ### C1: `compare_images` performs no config validation -/

/-- With a well-formed image and positive basis dimension, `hash_image`
succeeds iff the reduced matrix fits in 64 bits (`R·R ≤ 64`): no other
config check exists anywhere in the pipeline. -/
theorem hash_image_isOk_iff {K : Type} [LinearOrderedField K] [FloorRing K]
    (sqrt2K : K) (img : Image) (hwf : img.WF) (basis : DctBasis K)
    (hdim : 0 < basis.dim) (R : ℕ) (_hR1 : 1 ≤ R) :
    ((hash_image sqrt2K img basis R).isOk = true) ↔ R * R ≤ 64 := by
  rcases hscale : scale_image (K := K) img basis.dim basis.dim with e | J
  · have := scale_image_isOk (K := K) img hwf basis.dim basis.dim hdim hdim
    rw [hscale] at this
    cases this
  · rw [hash_image, hscale]
    show ((match hash_coefficients (reduce_dct_coefficients
        (calc_dct_coefficients sqrt2K (into_grayscale J) basis) R) with
      | .error e => Except.error ("Failed to calculate hash: " ++ e)
      | .ok hash => Except.ok hash).isOk = true) ↔ R * R ≤ 64
    by_cases hR : 64 < R * R
    · rw [hash_coefficients, if_pos (by
        show 64 < R * R
        exact hR)]
      show (false = true) ↔ _
      simp
      omega
    · rw [hash_coefficients, if_neg (by
        show ¬ 64 < R * R
        exact hR)]
      show (true = true) ↔ _
      simp
      omega

/-- C1 (counterexample): the config `N = 1, R = 2, T = 0` violates the
claimed constraint `R ≤ N`, yet `compare_images` happily returns
`Ok(true)` on two copies of a 1×1 image instead of failing with
`InvalidInput`: the function validates nothing. -/
theorem compare_images_no_validation_counterexample :
    compare_images (K := ℚ) (fun _ => 1) 0 1
      { width := 1, height := 1, channels_per_pixel := 1, pixels := [[7]] }
      { width := 1, height := 1, channels_per_pixel := 1, pixels := [[7]] }
      { dct_dimension := 1, dct_reduced_dimension := 2, allowed_distance := 0 } =
      .ok true := by
  have hhash := hash_image_1x1 (K := ℚ) 1 7
    (calc_dct_basis (fun _ => 1) 0 1) rfl 2 (by norm_num) (by norm_num)
  rw [compare_images, hhash]
  show Except.ok (decide (compare_hashes (2 ^ (2 * 2) - 1) (2 ^ (2 * 2) - 1) ≤ 0)) = _
  rw [compare_hashes, Nat.xor_self, popcount]
  rfl

/-- C1 (amended): `compare_images` performs no up-front validation of the
config.  For well-formed images and any `N ≥ 1`: a config whose reduced
matrix exceeds 64 cells (`R·R > 64`) makes it fail — but only inside the
hashing of the first image, not at entry — while every config with
`1 ≤ R` and `R·R ≤ 64` proceeds through the whole pipeline and returns a
boolean, no matter how `R` compares to `N` and how large the allowed
distance `T` is.  (`R = 0` is excluded from the success conjunct: there
the Rust code panics at the out-of-range DC write in
`reduce_dct_coefficients`, so the program returns neither `Ok` nor
`Err`.) -/
theorem compare_images_no_validation {K : Type} [LinearOrderedField K]
    [FloorRing K] (cosf : K → K) (piK sqrt2K : K)
    (left_image right_image : Image) (hl : left_image.WF)
    (hr : right_image.WF) (config : Config)
    (hN : 0 < config.dct_dimension) :
    (64 < config.dct_reduced_dimension * config.dct_reduced_dimension →
      (compare_images cosf piK sqrt2K left_image right_image config).isOk
        = false) ∧
    (1 ≤ config.dct_reduced_dimension →
      config.dct_reduced_dimension * config.dct_reduced_dimension ≤ 64 →
      (compare_images cosf piK sqrt2K left_image right_image config).isOk
        = true) := by
  have hdim : 0 < (calc_dct_basis cosf piK config.dct_dimension).dim := hN
  constructor
  · intro hbig
    have hR1 : 1 ≤ config.dct_reduced_dimension :=
      Nat.pos_of_ne_zero (fun h => by
        rw [h] at hbig
        exact absurd hbig (by norm_num))
    have hLiff := hash_image_isOk_iff sqrt2K left_image hl
      (calc_dct_basis cosf piK config.dct_dimension) hdim
      config.dct_reduced_dimension hR1
    rcases hL : hash_image sqrt2K left_image
        (calc_dct_basis cosf piK config.dct_dimension)
        config.dct_reduced_dimension with e | v
    · rw [compare_images, hL]
      rfl
    · rw [hL] at hLiff
      have : config.dct_reduced_dimension * config.dct_reduced_dimension ≤ 64 :=
        hLiff.mp rfl
      omega
  · intro hR1 hsmall
    have hLiff := hash_image_isOk_iff sqrt2K left_image hl
      (calc_dct_basis cosf piK config.dct_dimension) hdim
      config.dct_reduced_dimension hR1
    have hRiff := hash_image_isOk_iff sqrt2K right_image hr
      (calc_dct_basis cosf piK config.dct_dimension) hdim
      config.dct_reduced_dimension hR1
    rcases hL : hash_image sqrt2K left_image
        (calc_dct_basis cosf piK config.dct_dimension)
        config.dct_reduced_dimension with e | v
    · rw [hL] at hLiff
      have : ((Except.error e : Except String ℕ).isOk = true) := hLiff.mpr hsmall
      cases this
    · rcases hR : hash_image sqrt2K right_image
          (calc_dct_basis cosf piK config.dct_dimension)
          config.dct_reduced_dimension with e | w
      · rw [hR] at hRiff
        have : ((Except.error e : Except String ℕ).isOk = true) := hRiff.mpr hsmall
        cases this
      · rw [compare_images, hL, hR]
        rfl

/-- Witness for `compare_images_no_validation`: with `N = 1, R = 9`
(`R·R = 81 > 64`) the comparison fails, with `N = 1, R = 2` it returns a
boolean. -/
theorem compare_images_no_validation_witness :
    ((compare_images (K := ℚ) (fun _ => 1) 0 1
      { width := 1, height := 1, channels_per_pixel := 1, pixels := [[3]] }
      { width := 1, height := 1, channels_per_pixel := 1, pixels := [[4]] }
      { dct_dimension := 1, dct_reduced_dimension := 9,
        allowed_distance := 0 }).isOk = false) ∧
    ((compare_images (K := ℚ) (fun _ => 1) 0 1
      { width := 1, height := 1, channels_per_pixel := 1, pixels := [[3]] }
      { width := 1, height := 1, channels_per_pixel := 1, pixels := [[4]] }
      { dct_dimension := 1, dct_reduced_dimension := 2,
        allowed_distance := 0 }).isOk = true) := by
  constructor
  · exact (compare_images_no_validation (K := ℚ) (fun _ => 1) 0 1
      { width := 1, height := 1, channels_per_pixel := 1, pixels := [[3]] }
      { width := 1, height := 1, channels_per_pixel := 1, pixels := [[4]] }
      (by decide) (by decide)
      { dct_dimension := 1, dct_reduced_dimension := 9, allowed_distance := 0 }
      (by decide)).1 (by norm_num)
  · exact (compare_images_no_validation (K := ℚ) (fun _ => 1) 0 1
      { width := 1, height := 1, channels_per_pixel := 1, pixels := [[3]] }
      { width := 1, height := 1, channels_per_pixel := 1, pixels := [[4]] }
      (by decide) (by decide)
      { dct_dimension := 1, dct_reduced_dimension := 2, allowed_distance := 0 }
      (by decide)).2 (by norm_num) (by norm_num)

/-! ### C10: footprint safety -/

/-- C10 (amended, exact arithmetic): for a well-formed source image and
positive target dimensions, every destination coordinate's box footprint
is non-empty (`left < right`, `top < bottom`), visits only source
coordinates `x < width`, `y < height`, and hence hands `average_pixels` a
non-empty list of genuine pixels — **when the `f32` bound computations
are idealised as exact arithmetic**.  (Under the real `f32` rounding this
fails; see the counterexample.) -/
theorem sample_footprint_exact_bounds {K : Type} [LinearOrderedField K]
    [FloorRing K] (image : Image)
    (hw : 0 < image.width) (hh : 0 < image.height)
    (hlen : image.pixels.length = image.width * image.height)
    (W H nx ny : ℕ) (hW : 0 < W) (hH : 0 < H) (hx : nx < W) (hy : ny < H) :
    natFloor ((nx : K) / ((W : K) / (image.width : K))) <
      natCeil (((nx : K) + 1) / ((W : K) / (image.width : K))) ∧
    natFloor ((ny : K) / ((H : K) / (image.height : K))) <
      natCeil (((ny : K) + 1) / ((H : K) / (image.height : K))) ∧
    (∀ x ∈ List.range'
        (natFloor ((nx : K) / ((W : K) / (image.width : K))))
        (natCeil (((nx : K) + 1) / ((W : K) / (image.width : K))) -
          natFloor ((nx : K) / ((W : K) / (image.width : K)))),
      x < image.width) ∧
    (∀ y ∈ List.range'
        (natFloor ((ny : K) / ((H : K) / (image.height : K))))
        (natCeil (((ny : K) + 1) / ((H : K) / (image.height : K))) -
          natFloor ((ny : K) / ((H : K) / (image.height : K)))),
      y < image.height) ∧
    footprint image nx ny ((W : K) / (image.width : K))
      ((H : K) / (image.height : K)) ≠ [] ∧
    (∀ p ∈ footprint image nx ny ((W : K) / (image.width : K))
      ((H : K) / (image.height : K)), p ∈ image.pixels) := by
  have hxb := footprint_bounds (K := K) image.width W nx hw hW hx
  have hyb := footprint_bounds (K := K) image.height H ny hh hH hy
  refine ⟨hxb.1, hyb.1, ?_, ?_, ?_, ?_⟩
  · intro x hxm
    rw [List.mem_range'_1] at hxm
    have := hxb.2
    omega
  · intro y hym
    rw [List.mem_range'_1] at hym
    have := hyb.2
    omega
  · intro hnil
    have hL := footprint_length image nx ny
      ((W : K) / (image.width : K)) ((H : K) / (image.height : K))
    rw [hnil] at hL
    simp only [List.length_nil] at hL
    exact absurd hL.symm
      (Nat.mul_ne_zero (by omega) (by omega))
  · exact footprint_mem image nx ny _ _ hlen hxb.2 hyb.2

/-- Witness for `sample_footprint_exact_bounds` at a concrete instance:
a 2×1 image scaled to 3×2, destination pixel (2, 1). -/
theorem sample_footprint_exact_bounds_witness :
    (0 < 2 ∧ 0 < 1 ∧ ([[9], [8]] : List Pixel).length = 2 * 1 ∧
      0 < 3 ∧ 0 < 2 ∧ 2 < 3 ∧ 1 < 2) ∧
    (footprint (Image.mk 2 1 1 [[9], [8]]) 2 1
      (((3 : ℕ) : ℚ) / ((2 : ℕ) : ℚ))
      (((2 : ℕ) : ℚ) / ((1 : ℕ) : ℚ)) ≠ []) :=
  ⟨⟨by decide, by decide, by decide, by decide, by decide, by decide,
    by decide⟩,
    (sample_footprint_exact_bounds (K := ℚ) (Image.mk 2 1 1 [[9], [8]])
      (by decide) (by decide) (by decide) 3 2 2 1
      (by decide) (by decide) (by decide) (by decide)).2.2.2.2.1⟩

theorem int_log2_eq {q : ℚ} {e : ℤ} (hq : 0 < q)
    (h1 : (2 : ℚ) ^ e ≤ q) (h2 : q < (2 : ℚ) ^ (e + 1)) :
    Int.log 2 q = e := by
  have hb : (1 : ℕ) < 2 := by norm_num
  have ha := (Int.zpow_le_iff_le_log hb hq).mp (by exact_mod_cast h1)
  have hbb := (Int.lt_zpow_iff_log_lt hb hq).mp (by exact_mod_cast h2)
  omega

theorem rne_eval_lt {x : ℚ} {f : ℤ} (hf : Int.floor x = f)
    (hr : x - f < 1 / 2) : rne x = f := by
  rw [rne, hf, if_pos hr]

theorem rne_eval_gt {x : ℚ} {f : ℤ} (hf : Int.floor x = f)
    (hr : 1 / 2 < x - f) : rne x = f + 1 := by
  rw [rne, hf, if_neg (by linarith), if_pos hr]

theorem f32round_eval {q : ℚ} {e m : ℤ} (hq : 0 < q)
    (hlog : Int.log 2 q = e)
    (hrne : rne (q * (2 : ℚ) ^ ((23 : ℤ) - e)) = m) :
    f32round q = (m : ℚ) * (2 : ℚ) ^ (e - (23 : ℤ)) := by
  rw [f32round, if_neg (not_le.mpr hq)]
  show (rne (q * (2 : ℚ) ^ ((23 : ℤ) - Int.log 2 q)) : ℚ) *
    (2 : ℚ) ^ (Int.log 2 q - (23 : ℤ)) = _
  rw [hlog, hrne]

/-- C10 (counterexample): under the real `f32` semantics, scaling a
width-7 image to width 19 makes destination `x = 18` compute the
footprint `[6, 8)`: `fl(19/7) = 11384539/2^22` falls below `19/7`, so
`fl(19 / fl(19/7)) = 14680065/2^21` lands just above `7` and its ceiling
is `8`.  The sampling loop therefore visits source column `x = 7`, which
is **not** `< width = 7`: `get_pixel` reads out of the row (and out of
bounds on the last row), refuting the claimed safety property. -/
theorem sample_pixels_f32_out_of_bounds_counterexample :
    sample_bounds32 7 19 18 = (6, 8) ∧
    7 ∈ List.range' 6 (8 - 6) ∧ ¬ (7 < 7) := by
  have h7 : f32round ((7 : ℕ) : ℚ) = 7 := by
    rw [f32round_eval (e := 2) (m := 7 * 2 ^ 21) (by norm_num)
      (int_log2_eq (by norm_num) (by norm_num) (by norm_num))
      (rne_eval_lt (by norm_num) (by norm_num))]
    norm_num
  have h19 : f32round ((19 : ℕ) : ℚ) = 19 := by
    rw [f32round_eval (e := 4) (m := 19 * 2 ^ 19) (by norm_num)
      (int_log2_eq (by norm_num) (by norm_num) (by norm_num))
      (rne_eval_lt (by norm_num) (by norm_num))]
    norm_num
  have h18 : f32round ((18 : ℕ) : ℚ) = 18 := by
    rw [f32round_eval (e := 4) (m := 18 * 2 ^ 19) (by norm_num)
      (int_log2_eq (by norm_num) (by norm_num) (by norm_num))
      (rne_eval_lt (by norm_num) (by norm_num))]
    norm_num
  have hsx : f32round ((19 : ℚ) / 7) = 11384539 / 4194304 := by
    rw [f32round_eval (e := 1) (m := 11384539) (by norm_num)
      (int_log2_eq (by norm_num) (by norm_num) (by norm_num))
      (rne_eval_lt (f := 11384539)
        (Int.floor_eq_iff.mpr (by norm_num)) (by norm_num))]
    norm_num
  have hdiv19 : f32round ((19 : ℚ) / (11384539 / 4194304)) =
      14680065 / 2097152 := by
    rw [show (19 : ℚ) / (11384539 / 4194304) = 79691776 / 11384539 by
      norm_num]
    rw [f32round_eval (e := 2) (m := 14680065) (by norm_num)
      (int_log2_eq (by norm_num) (by norm_num) (by norm_num))
      (rne_eval_gt (f := 14680064)
        (Int.floor_eq_iff.mpr (by norm_num)) (by norm_num))]
    norm_num
  have hdiv18 : f32round ((18 : ℚ) / (11384539 / 4194304)) =
      6953715 / 1048576 := by
    rw [show (18 : ℚ) / (11384539 / 4194304) = 75497472 / 11384539 by
      norm_num]
    rw [f32round_eval (e := 2) (m := 13907430) (by norm_num)
      (int_log2_eq (by norm_num) (by norm_num) (by norm_num))
      (rne_eval_gt (f := 13907429)
        (Int.floor_eq_iff.mpr (by norm_num)) (by norm_num))]
    norm_num
  refine ⟨?_, by decide, by decide⟩
  show (natFloor (f32round (f32round ((18 : ℕ) : ℚ) /
      f32round (f32round ((19 : ℕ) : ℚ) / f32round ((7 : ℕ) : ℚ)))),
    natCeil (f32round (f32round (((18 : ℕ) : ℚ) + 1) /
      f32round (f32round ((19 : ℕ) : ℚ) / f32round ((7 : ℕ) : ℚ))))) = (6, 8)
  rw [h7, h19, hsx]
  rw [show (((18 : ℕ) : ℚ) + 1) = ((19 : ℕ) : ℚ) by norm_num, h19, h18]
  rw [hdiv18, hdiv19]
  rw [natFloor, natCeil]
  rw [show Int.floor ((6953715 : ℚ) / 1048576) = 6 from
    Int.floor_eq_iff.mpr (by norm_num)]
  rw [show Int.ceil ((14680065 : ℚ) / 2097152) = 8 from
    Int.ceil_eq_iff.mpr (by norm_num)]
  rfl

/-! ### C4: comparison result and Hamming distance -/

/-- C4: whenever both hashing passes succeed with hashes `hL`, `hR`,
`compare_images` returns `Ok(b)` with `b = true` iff
`popcount(hL ⊕ hR) ≤ allowed_distance`; and `compare_hashes` is the
popcount of the XOR on all 64-bit words. -/
theorem compare_images_distance_spec {K : Type} [LinearOrderedField K]
    [FloorRing K] (cosf : K → K) (piK sqrt2K : K)
    (left_image right_image : Image) (config : Config) (hL hR : ℕ)
    (hleft : hash_image sqrt2K left_image
      (calc_dct_basis cosf piK config.dct_dimension)
      config.dct_reduced_dimension = .ok hL)
    (hright : hash_image sqrt2K right_image
      (calc_dct_basis cosf piK config.dct_dimension)
      config.dct_reduced_dimension = .ok hR) :
    compare_images cosf piK sqrt2K left_image right_image config =
      .ok (decide (popcount (hL ^^^ hR) ≤ config.allowed_distance)) ∧
    ∀ h1 h2 : ℕ, h1 < 2 ^ 64 → h2 < 2 ^ 64 →
      compare_hashes h1 h2 = popcount (h1 ^^^ h2) := by
  constructor
  · rw [compare_images, hleft, hright]
    rfl
  · intro h1 h2 _ _
    rfl


/-- Witness for `compare_images_distance_spec`: comparing the 1×1 image
`[[7]]` with itself at `N = 1, R = 1, T = 0` (with the cosine modelled by
the constant-1 function over `ℚ`, which the theorem quantifies over)
yields `Ok(true)`. -/
theorem compare_images_distance_spec_witness :
    (hash_image (K := ℚ) 1
        { width := 1, height := 1, channels_per_pixel := 1, pixels := [[7]] }
        (calc_dct_basis (fun _ => 1) 0 1) 1 = .ok 1) ∧
    compare_images (K := ℚ) (fun _ => 1) 0 1
      { width := 1, height := 1, channels_per_pixel := 1, pixels := [[7]] }
      { width := 1, height := 1, channels_per_pixel := 1, pixels := [[7]] }
      { dct_dimension := 1, dct_reduced_dimension := 1, allowed_distance := 0 } =
      .ok (decide (popcount (1 ^^^ 1) ≤ 0)) := by
  have hhash : hash_image (K := ℚ) 1
      { width := 1, height := 1, channels_per_pixel := 1, pixels := [[7]] }
      (calc_dct_basis (fun _ => 1) 0 1) 1 = .ok 1 := by
    have := hash_image_1x1 (K := ℚ) 1 7 (calc_dct_basis (fun _ => 1) 0 1)
      rfl 1 (by norm_num) (by norm_num)
    simpa using this
  exact ⟨hhash,
    (compare_images_distance_spec (fun _ => 1) 0 1 _ _
      { dct_dimension := 1, dct_reduced_dimension := 1, allowed_distance := 0 }
      1 1 hhash hhash).1⟩

/-- Witness for `hash_coefficients_spec`: the hash of the 3×3 example has
popcount 5 (its five 1-cells) and its bit 1 is set. -/
theorem hash_coefficients_spec_witness :
    popcount 0b010011110 =
      (DMatrix.from_row_slice 3 3 [0, 1, 0, 1, 1, 1, 1, 0, 0]
        (0 : ℕ)).colMajorList.sum ∧
    Nat.testBit 0b010011110 1 = decide
      ((DMatrix.from_row_slice 3 3 [0, 1, 0, 1, 1, 1, 1, 0, 0]
        (0 : ℕ)).colMajorList.getD 1 0 = 1) := by
  have h := hash_coefficients_spec.2.1
    (DMatrix.from_row_slice 3 3 [0, 1, 0, 1, 1, 1, 1, 0, 0] 0) 0b010011110
    (by decide) (by decide) hash_coefficients_spec.2.2
  exact ⟨h.1, h.2 1⟩

/-! ### C8: the DCT projection -/

/-- The projection computes the orthonormal DCT-II formula: helper
rewriting of `calc_dct_coefficients` entries into the spec's
`(1/4)·α(k)·α(l)·Σ pixel(m,n)·cos(π(2m+1)k/2N)·cos(π(2n+1)l/2N)` form. -/
theorem calc_dct_coefficients_formula {K : Type} [LinearOrderedField K]
    (cosf : K → K) (piK sqrt2K : K) (img : Image) (N k l : ℕ) :
    (calc_dct_coefficients sqrt2K img (calc_dct_basis cosf piK N)).entry k l =
      1 / 4 * (if k = 0 then 1 / sqrt2K else 1) *
        (if l = 0 then 1 / sqrt2K else 1) *
        ∑ m ∈ Finset.range img.width, ∑ n ∈ Finset.range img.height,
          ((img.get_pixel m n).headD 0 : K) *
            (cosf (piK * (2 * (m : K) + 1) * (k : K) / (2 * (N : K))) *
              cosf (piK * (2 * (n : K) + 1) * (l : K) / (2 * (N : K)))) := by
  show (1 / 4 : K) * _ * _ * _ = _
  congr 1
  apply Finset.sum_congr rfl
  intro m _
  apply Finset.sum_congr rfl
  intro n _
  congr 1
  show calc_dct_basis_at cosf piK N k l m n = _
  rw [calc_dct_basis_at]
  show cosf (2 * piK * ((l : K) / (2 * (N : K))) * ((n : K) + 1 / 2)) *
      cosf (2 * piK * ((k : K) / (2 * (N : K))) * ((m : K) + 1 / 2)) = _
  rw [show 2 * piK * ((l : K) / (2 * (N : K))) * ((n : K) + 1 / 2) =
      piK * (2 * (n : K) + 1) * (l : K) / (2 * (N : K)) by
    rw [div_eq_mul_inv, div_eq_mul_inv]; ring]
  rw [show 2 * piK * ((k : K) / (2 * (N : K))) * ((m : K) + 1 / 2) =
      piK * (2 * (m : K) + 1) * (k : K) / (2 * (N : K)) by
    rw [div_eq_mul_inv, div_eq_mul_inv]; ring]
  rw [mul_comm]

theorem cos_pi_mul_add32 (t : ℕ) :
    Real.cos (Real.pi * ((t + 32 : ℕ) : ℝ) / 16) =
      Real.cos (Real.pi * (t : ℝ) / 16) := by
  push_cast
  rw [show Real.pi * ((t : ℝ) + 32) / 16 =
    Real.pi * (t : ℝ) / 16 + 2 * Real.pi by ring]
  exact Real.cos_add_two_pi _

theorem cos_pi_mul_mod32 (t : ℕ) :
    Real.cos (Real.pi * (t : ℝ) / 16) =
      Real.cos (Real.pi * ((t % 32 : ℕ) : ℝ) / 16) := by
  have haux : ∀ q r : ℕ, Real.cos (Real.pi * ((32 * q + r : ℕ) : ℝ) / 16) =
      Real.cos (Real.pi * (r : ℝ) / 16) := by
    intro q
    induction q with
    | zero => intro r; norm_num
    | succ q ih =>
      intro r
      have h1 : 32 * (q + 1) + r = (32 * q + r) + 32 := by ring
      rw [h1, cos_pi_mul_add32, ih]
  conv_lhs => rw [show t = 32 * (t / 32) + t % 32 from (Nat.div_add_mod t 32).symm]
  rw [haux]

/-- Reduction of `cos(π·t/16)` to the fundamental range `0 ≤ j ≤ 8`. -/
theorem cos_reduce (t : ℕ) :
    Real.cos (Real.pi * (t : ℝ) / 16) =
      (redSign t : ℝ) * Real.cos (Real.pi * ((redIdx t : ℕ) : ℝ) / 16) := by
  rw [cos_pi_mul_mod32 t]
  have hsign : redSign t = if t % 32 ≤ 8 then 1
      else if t % 32 ≤ 24 then -1 else 1 := rfl
  have hidx : redIdx t = if t % 32 ≤ 8 then t % 32
      else if t % 32 ≤ 16 then 16 - t % 32
      else if t % 32 ≤ 24 then t % 32 - 16 else 32 - t % 32 := rfl
  rcases le_or_lt (t % 32) 8 with h8 | h8
  · have hsv : redSign t = 1 := by rw [hsign, if_pos h8]
    have hiv : redIdx t = t % 32 := by rw [hidx, if_pos h8]
    rw [hsv, hiv, Int.cast_one, one_mul]
  · rcases le_or_lt (t % 32) 16 with h16 | h16
    · have hsv : redSign t = -1 := by
        rw [hsign, if_neg (by omega), if_pos (by omega)]
      have hiv : redIdx t = 16 - t % 32 := by
        rw [hidx, if_neg (by omega), if_pos h16]
      rw [hsv, hiv, Int.cast_neg, Int.cast_one]
      have hcast : ((16 - t % 32 : ℕ) : ℝ) = 16 - ((t % 32 : ℕ) : ℝ) := by
        push_cast [Nat.cast_sub h16]
        ring
      rw [hcast, show Real.pi * (16 - ((t % 32 : ℕ) : ℝ)) / 16 =
        Real.pi - Real.pi * ((t % 32 : ℕ) : ℝ) / 16 by ring, Real.cos_pi_sub]
      ring
    · rcases le_or_lt (t % 32) 24 with h24 | h24
      · have hsv : redSign t = -1 := by
          rw [hsign, if_neg (by omega), if_pos h24]
        have hiv : redIdx t = t % 32 - 16 := by
          rw [hidx, if_neg (by omega), if_neg (by omega), if_pos h24]
        rw [hsv, hiv, Int.cast_neg, Int.cast_one]
        have hcast : ((t % 32 - 16 : ℕ) : ℝ) = ((t % 32 : ℕ) : ℝ) - 16 := by
          push_cast [Nat.cast_sub (by omega : 16 ≤ t % 32)]
          ring
        rw [hcast, show Real.pi * (((t % 32 : ℕ) : ℝ) - 16) / 16 =
          Real.pi * ((t % 32 : ℕ) : ℝ) / 16 - Real.pi by ring]
        rw [show Real.pi * ((t % 32 : ℕ) : ℝ) / 16 - Real.pi =
          -(Real.pi - Real.pi * ((t % 32 : ℕ) : ℝ) / 16) by ring]
        rw [Real.cos_neg, Real.cos_pi_sub]
        ring
      · have hsv : redSign t = 1 := by
          rw [hsign, if_neg (by omega), if_neg (by omega)]
        have hiv : redIdx t = 32 - t % 32 := by
          rw [hidx, if_neg (by omega), if_neg (by omega), if_neg (by omega)]
        rw [hsv, hiv, Int.cast_one, one_mul]
        have hr : t % 32 < 32 := Nat.mod_lt t (by norm_num)
        have hcast : ((32 - t % 32 : ℕ) : ℝ) = 32 - ((t % 32 : ℕ) : ℝ) := by
          push_cast [Nat.cast_sub (by omega : t % 32 ≤ 32)]
          ring
        rw [hcast, show Real.pi * (32 - ((t % 32 : ℕ) : ℝ)) / 16 =
          -(Real.pi * ((t % 32 : ℕ) : ℝ) / 16) + 2 * Real.pi by ring,
          Real.cos_add_two_pi, Real.cos_neg]

theorem sqrt_bounds (x l u : ℝ) (_hl0 : 0 ≤ l) (h1 : l ^ 2 ≤ x)
    (h2 : x ≤ u ^ 2) (hu : 0 ≤ u) :
    l ≤ Real.sqrt x ∧ Real.sqrt x ≤ u := by
  constructor
  · exact Real.le_sqrt_of_sq_le h1
  · calc Real.sqrt x ≤ Real.sqrt (u ^ 2) := Real.sqrt_le_sqrt h2
      _ = u := Real.sqrt_sq hu

theorem cos_half_bounds (θ a b l u : ℝ) (hθ1 : -Real.pi ≤ θ)
    (hθ2 : θ ≤ Real.pi) (hca : a ≤ Real.cos θ) (hcb : Real.cos θ ≤ b)
    (hl0 : 0 ≤ l) (hu : 0 ≤ u) (h1 : l ^ 2 ≤ (1 + a) / 2)
    (h2 : (1 + b) / 2 ≤ u ^ 2) :
    l ≤ Real.cos (θ / 2) ∧ Real.cos (θ / 2) ≤ u := by
  rw [Real.cos_half hθ1 hθ2]
  exact sqrt_bounds _ _ _ hl0 (by linarith) (by linarith) hu

theorem cos_j4_bounds :
    (12439554047701 / 17592186044416 : ℝ) ≤
      Real.cos (Real.pi * (4 : ℝ) / 16) ∧
    Real.cos (Real.pi * (4 : ℝ) / 16) ≤
      12439554048101 / 17592186044416 := by
  have hs := sqrt_bounds 2 (2 * (12439554047701 / 17592186044416 : ℝ))
    (2 * (12439554048101 / 17592186044416 : ℝ))
    (by norm_num) (by norm_num) (by norm_num) (by norm_num)
  rw [show Real.pi * (4 : ℝ) / 16 = Real.pi / 4 by ring,
    Real.cos_pi_div_four]
  constructor <;> linarith [hs.1, hs.2]

theorem cos_j2_bounds :
    (16253060618366 / 17592186044416 : ℝ) ≤
      Real.cos (Real.pi * (2 : ℝ) / 16) ∧
    Real.cos (Real.pi * (2 : ℝ) / 16) ≤
      16253060618766 / 17592186044416 := by
  have h4 := cos_j4_bounds
  rw [show Real.pi * (4 : ℝ) / 16 = Real.pi / 4 by ring] at h4
  have h := cos_half_bounds (Real.pi / 4) _ _
    (16253060618366 / 17592186044416 : ℝ)
    (16253060618766 / 17592186044416 : ℝ)
    (by linarith [Real.pi_pos]) (by linarith [Real.pi_pos]) h4.1 h4.2
    (by norm_num) (by norm_num) (by norm_num) (by norm_num)
  rw [show Real.pi * (2 : ℝ) / 16 = Real.pi / 4 / 2 by ring]
  exact h

theorem cos_j6_bounds :
    (6732238138082 / 17592186044416 : ℝ) ≤
      Real.cos (Real.pi * (6 : ℝ) / 16) ∧
    Real.cos (Real.pi * (6 : ℝ) / 16) ≤
      6732238138482 / 17592186044416 := by
  have h4 := cos_j4_bounds
  rw [show Real.pi * (4 : ℝ) / 16 = Real.pi / 4 by ring] at h4
  have h34 : Real.cos (3 * Real.pi / 4) = -Real.cos (Real.pi / 4) := by
    rw [show 3 * Real.pi / 4 = Real.pi - Real.pi / 4 by ring,
      Real.cos_pi_sub]
  have h := cos_half_bounds (3 * Real.pi / 4)
    (-(12439554048101 / 17592186044416 : ℝ))
    (-(12439554047701 / 17592186044416 : ℝ))
    (6732238138082 / 17592186044416 : ℝ)
    (6732238138482 / 17592186044416 : ℝ)
    (by linarith [Real.pi_pos]) (by linarith [Real.pi_pos])
    (by rw [h34]; linarith [h4.2]) (by rw [h34]; linarith [h4.1])
    (by norm_num) (by norm_num) (by norm_num) (by norm_num)
  rw [show Real.pi * (6 : ℝ) / 16 = 3 * Real.pi / 4 / 2 by ring]
  exact h

theorem cos_j1_bounds :
    (17254157121878 / 17592186044416 : ℝ) ≤
      Real.cos (Real.pi * (1 : ℝ) / 16) ∧
    Real.cos (Real.pi * (1 : ℝ) / 16) ≤
      17254157123078 / 17592186044416 := by
  have h2 := cos_j2_bounds
  rw [show Real.pi * (2 : ℝ) / 16 = Real.pi / 8 by ring] at h2
  have h := cos_half_bounds (Real.pi / 8) _ _
    (17254157121878 / 17592186044416 : ℝ)
    (17254157123078 / 17592186044416 : ℝ)
    (by linarith [Real.pi_pos]) (by linarith [Real.pi_pos]) h2.1 h2.2
    (by norm_num) (by norm_num) (by norm_num) (by norm_num)
  rw [show Real.pi * (1 : ℝ) / 16 = Real.pi / 8 / 2 by ring]
  exact h

theorem cos_j3_bounds :
    (14627368109304 / 17592186044416 : ℝ) ≤
      Real.cos (Real.pi * (3 : ℝ) / 16) ∧
    Real.cos (Real.pi * (3 : ℝ) / 16) ≤
      14627368110504 / 17592186044416 := by
  have h6 := cos_j6_bounds
  rw [show Real.pi * (6 : ℝ) / 16 = 3 * Real.pi / 8 by ring] at h6
  have h := cos_half_bounds (3 * Real.pi / 8) _ _
    (14627368109304 / 17592186044416 : ℝ)
    (14627368110504 / 17592186044416 : ℝ)
    (by linarith [Real.pi_pos]) (by linarith [Real.pi_pos]) h6.1 h6.2
    (by norm_num) (by norm_num) (by norm_num) (by norm_num)
  rw [show Real.pi * (3 : ℝ) / 16 = 3 * Real.pi / 8 / 2 by ring]
  exact h

theorem cos_j5_bounds :
    (9773694898020 / 17592186044416 : ℝ) ≤
      Real.cos (Real.pi * (5 : ℝ) / 16) ∧
    Real.cos (Real.pi * (5 : ℝ) / 16) ≤
      9773694902020 / 17592186044416 := by
  have h6 := cos_j6_bounds
  rw [show Real.pi * (6 : ℝ) / 16 = 3 * Real.pi / 8 by ring] at h6
  have h58 : Real.cos (5 * Real.pi / 8) = -Real.cos (3 * Real.pi / 8) := by
    rw [show 5 * Real.pi / 8 = Real.pi - 3 * Real.pi / 8 by ring,
      Real.cos_pi_sub]
  have h := cos_half_bounds (5 * Real.pi / 8)
    (-(6732238138482 / 17592186044416 : ℝ))
    (-(6732238138082 / 17592186044416 : ℝ))
    (9773694898020 / 17592186044416 : ℝ)
    (9773694902020 / 17592186044416 : ℝ)
    (by linarith [Real.pi_pos]) (by linarith [Real.pi_pos])
    (by rw [h58]; linarith [h6.2]) (by rw [h58]; linarith [h6.1])
    (by norm_num) (by norm_num) (by norm_num) (by norm_num)
  rw [show Real.pi * (5 : ℝ) / 16 = 5 * Real.pi / 8 / 2 by ring]
  exact h

theorem cos_j7_bounds :
    (3432065238372 / 17592186044416 : ℝ) ≤
      Real.cos (Real.pi * (7 : ℝ) / 16) ∧
    Real.cos (Real.pi * (7 : ℝ) / 16) ≤
      3432065242372 / 17592186044416 := by
  have h2 := cos_j2_bounds
  rw [show Real.pi * (2 : ℝ) / 16 = Real.pi / 8 by ring] at h2
  have h78 : Real.cos (7 * Real.pi / 8) = -Real.cos (Real.pi / 8) := by
    rw [show 7 * Real.pi / 8 = Real.pi - Real.pi / 8 by ring,
      Real.cos_pi_sub]
  have h := cos_half_bounds (7 * Real.pi / 8)
    (-(16253060618766 / 17592186044416 : ℝ))
    (-(16253060618366 / 17592186044416 : ℝ))
    (3432065238372 / 17592186044416 : ℝ)
    (3432065242372 / 17592186044416 : ℝ)
    (by linarith [Real.pi_pos]) (by linarith [Real.pi_pos])
    (by rw [h78]; linarith [h2.2]) (by rw [h78]; linarith [h2.1])
    (by norm_num) (by norm_num) (by norm_num) (by norm_num)
  rw [show Real.pi * (7 : ℝ) / 16 = 7 * Real.pi / 8 / 2 by ring]
  exact h

/-- The scaled table `cz` approximates `cos(π·j/16)·2^30` to within two
units of the scale. -/
theorem cz_approx (j : ℕ) (hj : j ≤ 8) :
    |Real.cos (Real.pi * (j : ℝ) / 16) - (cz j : ℝ) / 1073741824| ≤
      2 / 1073741824 := by
  interval_cases j
  · rw [show Real.pi * ((0 : ℕ) : ℝ) / 16 = 0 by push_cast; ring,
      Real.cos_zero]
    norm_num [cz, czT]
  · have h := cos_j1_bounds
    rw [show ((1 : ℕ) : ℝ) = (1 : ℝ) by norm_num]
    rw [abs_le]
    norm_num [cz, czT] at h ⊢
    constructor <;> linarith [h.1, h.2]
  · have h := cos_j2_bounds
    rw [show ((2 : ℕ) : ℝ) = (2 : ℝ) by norm_num]
    rw [abs_le]
    norm_num [cz, czT] at h ⊢
    constructor <;> linarith [h.1, h.2]
  · have h := cos_j3_bounds
    rw [show ((3 : ℕ) : ℝ) = (3 : ℝ) by norm_num]
    rw [abs_le]
    norm_num [cz, czT] at h ⊢
    constructor <;> linarith [h.1, h.2]
  · have h := cos_j4_bounds
    rw [show ((4 : ℕ) : ℝ) = (4 : ℝ) by norm_num]
    rw [abs_le]
    norm_num [cz, czT] at h ⊢
    constructor <;> linarith [h.1, h.2]
  · have h := cos_j5_bounds
    rw [show ((5 : ℕ) : ℝ) = (5 : ℝ) by norm_num]
    rw [abs_le]
    norm_num [cz, czT] at h ⊢
    constructor <;> linarith [h.1, h.2]
  · have h := cos_j6_bounds
    rw [show ((6 : ℕ) : ℝ) = (6 : ℝ) by norm_num]
    rw [abs_le]
    norm_num [cz, czT] at h ⊢
    constructor <;> linarith [h.1, h.2]
  · have h := cos_j7_bounds
    rw [show ((7 : ℕ) : ℝ) = (7 : ℝ) by norm_num]
    rw [abs_le]
    norm_num [cz, czT] at h ⊢
    constructor <;> linarith [h.1, h.2]
  · rw [show Real.pi * ((8 : ℕ) : ℝ) / 16 = Real.pi / 2 by push_cast; ring,
      Real.cos_pi_div_two]
    norm_num [cz, czT]

/-- Approximation of `cos(π·t/16)` by the scaled integer `csz t`. -/
theorem csz_approx (t : ℕ) :
    |Real.cos (Real.pi * (t : ℝ) / 16) - (csz t : ℝ) / 1073741824| ≤
      2 / 1073741824 := by
  rw [cos_reduce t]
  have hidx : redIdx t ≤ 8 := by
    rw [redIdx]
    split_ifs <;> omega
  have h := cz_approx (redIdx t) hidx
  have hsgn : redSign t = 1 ∨ redSign t = -1 := by
    rw [redSign]
    split_ifs <;> simp
  rcases hsgn with hs | hs
  · rw [csz, hs]
    push_cast
    simpa using h
  · rw [csz, hs]
    push_cast
    rw [show -1 * Real.cos (Real.pi * ((redIdx t : ℕ) : ℝ) / 16) -
        -1 * (cz (redIdx t) : ℝ) / 1073741824 =
        -(Real.cos (Real.pi * ((redIdx t : ℕ) : ℝ) / 16) -
          (cz (redIdx t) : ℝ) / 1073741824) by ring, abs_neg]
    exact h

theorem csz_abs_le (t : ℕ) : |csz t| ≤ 1073741824 := by
  rw [csz, abs_mul]
  have h1 : |redSign t| = 1 := by
    rw [redSign]
    split_ifs <;> simp
  rw [h1, one_mul]
  have hidx : redIdx t ≤ 8 := by
    rw [redIdx]
    split_ifs <;> omega
  have hall : ∀ j : ℕ, j ≤ 8 → |cz j| ≤ 1073741824 := by decide
  exact hall _ hidx

theorem csz_div_abs_le (t : ℕ) : |(csz t : ℝ) / 1073741824| ≤ 1 := by
  rw [abs_div, abs_of_pos (by norm_num : (0 : ℝ) < 1073741824),
    div_le_one (by norm_num)]
  exact_mod_cast csz_abs_le t

theorem prod_approx (p c1 c2 q1 q2 e : ℝ) (hp : 0 ≤ p) (hc1 : |c1| ≤ 1)
    (hq2 : |q2| ≤ 1) (h1 : |c1 - q1| ≤ e) (h2 : |c2 - q2| ≤ e)
    (_he : 0 ≤ e) :
    |p * (c1 * c2) - p * (q1 * q2)| ≤ p * (2 * e) := by
  rw [← mul_sub, abs_mul, abs_of_nonneg hp]
  apply mul_le_mul_of_nonneg_left _ hp
  calc |c1 * c2 - q1 * q2| = |c1 * (c2 - q2) + q2 * (c1 - q1)| := by ring_nf
    _ ≤ |c1 * (c2 - q2)| + |q2 * (c1 - q1)| := abs_add _ _
    _ = |c1| * |c2 - q2| + |q2| * |c1 - q1| := by rw [abs_mul, abs_mul]
    _ ≤ 1 * e + 1 * e := by
        apply add_le_add
        · exact mul_le_mul hc1 h2 (abs_nonneg _) zero_le_one
        · exact mul_le_mul hq2 h1 (abs_nonneg _) zero_le_one
    _ = 2 * e := by ring

theorem double_sum_abs_le (f g : ℕ → ℕ → ℝ)
    (h : ∀ m ∈ Finset.range 8, ∀ n ∈ Finset.range 8, |f m n| ≤ g m n) :
    |∑ m ∈ Finset.range 8, ∑ n ∈ Finset.range 8, f m n| ≤
      ∑ m ∈ Finset.range 8, ∑ n ∈ Finset.range 8, g m n := by
  calc |∑ m ∈ Finset.range 8, ∑ n ∈ Finset.range 8, f m n| ≤
      ∑ m ∈ Finset.range 8, |∑ n ∈ Finset.range 8, f m n| :=
        Finset.abs_sum_le_sum_abs _ _
    _ ≤ ∑ m ∈ Finset.range 8, ∑ n ∈ Finset.range 8, g m n := by
        apply Finset.sum_le_sum
        intro m hm
        calc |∑ n ∈ Finset.range 8, f m n| ≤
            ∑ n ∈ Finset.range 8, |f m n| := Finset.abs_sum_le_sum_abs _ _
          _ ≤ ∑ n ∈ Finset.range 8, g m n :=
              Finset.sum_le_sum (fun n hn => h m hm n hn)

theorem one_div_sqrt_two_eq : (1 : ℝ) / Real.sqrt 2 = Real.sqrt 2 / 2 := by
  have h : Real.sqrt 2 ≠ 0 := by positivity
  field_simp

theorem aZ_approx (j : ℕ) :
    |(if j = 0 then 1 / Real.sqrt 2 else 1) - (aZ j : ℝ) / 1073741824| ≤
        2 / 1073741824 ∧
      |(if j = 0 then 1 / Real.sqrt 2 else 1 : ℝ)| ≤ 1 ∧
      |(aZ j : ℝ) / 1073741824| ≤ 1 := by
  have hs2 : (1 : ℝ) ≤ Real.sqrt 2 :=
    Real.le_sqrt_of_sq_le (by norm_num)
  by_cases hj : j = 0
  · subst hj
    simp only [aZ, eq_self_iff_true, if_true]
    have hc := cz_approx 4 (by norm_num)
    rw [show ((4 : ℕ) : ℝ) = (4 : ℝ) by norm_num,
      show Real.pi * (4 : ℝ) / 16 = Real.pi / 4 by ring,
      Real.cos_pi_div_four, ← one_div_sqrt_two_eq] at hc
    refine ⟨by simpa [cz, czT] using hc, ?_, ?_⟩
    · rw [abs_of_nonneg (by positivity)]
      rw [div_le_one (by linarith)]
      linarith
    · rw [abs_le]
      constructor <;> norm_num [cz, czT]
  · simp only [aZ, hj, if_false]
    norm_num

theorem pix_sum_value :
    (∑ m ∈ Finset.range 8, ∑ n ∈ Finset.range 8, pixZ m n) = 10063 := by
  decide

theorem refImage_pixel : ∀ m < 8, ∀ n < 8,
    ((refImage.get_pixel m n).headD 0 : ℕ) = refBlock.getD (n * 8 + m) 0 := by
  decide

/-- The real DCT coefficient of the reference block is within
`20126/2^30 < 1.88·10⁻⁵` of its scaled-integer approximation. -/
theorem dct_entry_model_err (k l : ℕ) :
    |(calc_dct_coefficients (Real.sqrt 2) refImage
        (calc_dct_basis Real.cos Real.pi 8)).entry k l -
      ((aZ k * aZ l * SqZ k l : ℤ) : ℝ) / (4 * ((D4 : ℤ) : ℝ))| ≤
      20126 / 1073741824 := by
  have hwidth : refImage.width = 8 := rfl
  have hheight : refImage.height = 8 := rfl
  rw [calc_dct_coefficients_formula, hwidth, hheight]
  have hS : (∑ m ∈ Finset.range 8, ∑ n ∈ Finset.range 8,
      ((refImage.get_pixel m n).headD 0 : ℝ) *
        (Real.cos (Real.pi * (2 * (m : ℝ) + 1) * (k : ℝ) / (2 * ((8 : ℕ) : ℝ))) *
          Real.cos (Real.pi * (2 * (n : ℝ) + 1) * (l : ℝ) / (2 * ((8 : ℕ) : ℝ))))) =
      ∑ m ∈ Finset.range 8, ∑ n ∈ Finset.range 8,
        (pixZ m n : ℝ) *
          (Real.cos (Real.pi * ((k * (2 * m + 1) : ℕ) : ℝ) / 16) *
            Real.cos (Real.pi * ((l * (2 * n + 1) : ℕ) : ℝ) / 16)) := by
    apply Finset.sum_congr rfl
    intro m hm
    apply Finset.sum_congr rfl
    intro n hn
    rw [refImage_pixel m (Finset.mem_range.mp hm) n (Finset.mem_range.mp hn)]
    rw [show Real.pi * (2 * (m : ℝ) + 1) * (k : ℝ) / (2 * ((8 : ℕ) : ℝ)) =
      Real.pi * ((k * (2 * m + 1) : ℕ) : ℝ) / 16 by push_cast; ring]
    rw [show Real.pi * (2 * (n : ℝ) + 1) * (l : ℝ) / (2 * ((8 : ℕ) : ℝ)) =
      Real.pi * ((l * (2 * n + 1) : ℕ) : ℝ) / 16 by push_cast; ring]
    rw [pixZ]
    push_cast
    ring
  rw [hS]
  have hA : ((aZ k * aZ l * SqZ k l : ℤ) : ℝ) / (4 * ((D4 : ℤ) : ℝ)) =
      1 / 4 * ((aZ k : ℝ) / 1073741824) * ((aZ l : ℝ) / 1073741824) *
        (((SqZ k l : ℤ) : ℝ) / 1073741824 ^ 2) := by
    rw [D4]
    push_cast
    rw [div_mul_div_comm, div_mul_div_comm, div_mul_div_comm]
    congr 1
    · ring
    · norm_num
  rw [hA]
  have hSq : ((SqZ k l : ℤ) : ℝ) / 1073741824 ^ 2 =
      ∑ m ∈ Finset.range 8, ∑ n ∈ Finset.range 8,
        (pixZ m n : ℝ) *
          ((csz (k * (2 * m + 1)) : ℝ) / 1073741824 *
            ((csz (l * (2 * n + 1)) : ℝ) / 1073741824)) := by
    rw [SqZ]
    push_cast
    rw [Finset.sum_div]
    apply Finset.sum_congr rfl
    intro m _
    rw [Finset.sum_div]
    apply Finset.sum_congr rfl
    intro n _
    ring
  rw [hSq]
  have hpix_nonneg : ∀ m n : ℕ, (0 : ℝ) ≤ (pixZ m n : ℝ) := by
    intro m n
    rw [pixZ]
    positivity
  have hpix_cast : (∑ m ∈ Finset.range 8, ∑ n ∈ Finset.range 8,
      (pixZ m n : ℝ)) = 10063 := by
    have hcast : (∑ m ∈ Finset.range 8, ∑ n ∈ Finset.range 8,
        (pixZ m n : ℝ)) =
        ((∑ m ∈ Finset.range 8, ∑ n ∈ Finset.range 8, pixZ m n : ℤ) : ℝ) := by
      push_cast
      rfl
    rw [hcast, pix_sum_value]
    norm_num
  have hSS : |(∑ m ∈ Finset.range 8, ∑ n ∈ Finset.range 8,
      (pixZ m n : ℝ) *
        (Real.cos (Real.pi * ((k * (2 * m + 1) : ℕ) : ℝ) / 16) *
          Real.cos (Real.pi * ((l * (2 * n + 1) : ℕ) : ℝ) / 16))) -
      (∑ m ∈ Finset.range 8, ∑ n ∈ Finset.range 8,
      (pixZ m n : ℝ) *
        ((csz (k * (2 * m + 1)) : ℝ) / 1073741824 *
          ((csz (l * (2 * n + 1)) : ℝ) / 1073741824)))| ≤
      40252 / 1073741824 := by
    have heach : ∀ m ∈ Finset.range 8, ∀ n ∈ Finset.range 8,
        |((pixZ m n : ℝ) *
          (Real.cos (Real.pi * ((k * (2 * m + 1) : ℕ) : ℝ) / 16) *
            Real.cos (Real.pi * ((l * (2 * n + 1) : ℕ) : ℝ) / 16))) -
          ((pixZ m n : ℝ) *
          ((csz (k * (2 * m + 1)) : ℝ) / 1073741824 *
            ((csz (l * (2 * n + 1)) : ℝ) / 1073741824)))| ≤
          (pixZ m n : ℝ) * (2 * (2 / 1073741824)) := by
      intro m _ n _
      exact prod_approx _ _ _ _ _ _ (hpix_nonneg m n)
        (Real.abs_cos_le_one _) (csz_div_abs_le _)
        (csz_approx _) (csz_approx _) (by norm_num)
    rw [← Finset.sum_sub_distrib]
    have hinner : (∑ m ∈ Finset.range 8,
        ((∑ n ∈ Finset.range 8,
          (pixZ m n : ℝ) *
            (Real.cos (Real.pi * ((k * (2 * m + 1) : ℕ) : ℝ) / 16) *
              Real.cos (Real.pi * ((l * (2 * n + 1) : ℕ) : ℝ) / 16))) -
          (∑ n ∈ Finset.range 8,
          (pixZ m n : ℝ) *
            ((csz (k * (2 * m + 1)) : ℝ) / 1073741824 *
              ((csz (l * (2 * n + 1)) : ℝ) / 1073741824))))) =
        ∑ m ∈ Finset.range 8, ∑ n ∈ Finset.range 8,
          ((pixZ m n : ℝ) *
            (Real.cos (Real.pi * ((k * (2 * m + 1) : ℕ) : ℝ) / 16) *
              Real.cos (Real.pi * ((l * (2 * n + 1) : ℕ) : ℝ) / 16)) -
            (pixZ m n : ℝ) *
            ((csz (k * (2 * m + 1)) : ℝ) / 1073741824 *
              ((csz (l * (2 * n + 1)) : ℝ) / 1073741824))) := by
      apply Finset.sum_congr rfl
      intro m _
      exact Finset.sum_sub_distrib.symm
    rw [hinner]
    calc |∑ m ∈ Finset.range 8, ∑ n ∈ Finset.range 8,
        ((pixZ m n : ℝ) *
          (Real.cos (Real.pi * ((k * (2 * m + 1) : ℕ) : ℝ) / 16) *
            Real.cos (Real.pi * ((l * (2 * n + 1) : ℕ) : ℝ) / 16)) -
          (pixZ m n : ℝ) *
          ((csz (k * (2 * m + 1)) : ℝ) / 1073741824 *
            ((csz (l * (2 * n + 1)) : ℝ) / 1073741824)))| ≤
        ∑ m ∈ Finset.range 8, ∑ n ∈ Finset.range 8,
          (pixZ m n : ℝ) * (2 * (2 / 1073741824)) :=
        double_sum_abs_le _ _ heach
      _ = (∑ m ∈ Finset.range 8, ∑ n ∈ Finset.range 8, (pixZ m n : ℝ)) *
          (2 * (2 / 1073741824)) := by
          simp only [← Finset.sum_mul]
      _ = 40252 / 1073741824 := by
          rw [hpix_cast]
          norm_num
  have hSt : |∑ m ∈ Finset.range 8, ∑ n ∈ Finset.range 8,
      (pixZ m n : ℝ) *
        ((csz (k * (2 * m + 1)) : ℝ) / 1073741824 *
          ((csz (l * (2 * n + 1)) : ℝ) / 1073741824))| ≤ 10063 := by
    calc |∑ m ∈ Finset.range 8, ∑ n ∈ Finset.range 8,
        (pixZ m n : ℝ) *
          ((csz (k * (2 * m + 1)) : ℝ) / 1073741824 *
            ((csz (l * (2 * n + 1)) : ℝ) / 1073741824))| ≤
        ∑ m ∈ Finset.range 8, ∑ n ∈ Finset.range 8, (pixZ m n : ℝ) := by
          apply double_sum_abs_le
          intro m _ n _
          rw [abs_mul, abs_mul]
          calc |(pixZ m n : ℝ)| * (|(csz (k * (2 * m + 1)) : ℝ) / 1073741824| *
              |(csz (l * (2 * n + 1)) : ℝ) / 1073741824|) ≤
              |(pixZ m n : ℝ)| * (1 * 1) := by
                apply mul_le_mul_of_nonneg_left _ (abs_nonneg _)
                exact mul_le_mul (csz_div_abs_le _) (csz_div_abs_le _)
                  (abs_nonneg _) zero_le_one
            _ = (pixZ m n : ℝ) := by
                rw [abs_of_nonneg (hpix_nonneg m n)]
                ring
      _ = 10063 := hpix_cast
  have hak := aZ_approx k
  have hal := aZ_approx l
  set c1 := (if k = 0 then 1 / Real.sqrt 2 else 1 : ℝ)
  set c2 := (if l = 0 then 1 / Real.sqrt 2 else 1 : ℝ)
  set b1 := (aZ k : ℝ) / 1073741824
  set b2 := (aZ l : ℝ) / 1073741824
  set Sre := ∑ m ∈ Finset.range 8, ∑ n ∈ Finset.range 8,
      (pixZ m n : ℝ) *
        (Real.cos (Real.pi * ((k * (2 * m + 1) : ℕ) : ℝ) / 16) *
          Real.cos (Real.pi * ((l * (2 * n + 1) : ℕ) : ℝ) / 16)) with hSre
  set Stl := ∑ m ∈ Finset.range 8, ∑ n ∈ Finset.range 8,
      (pixZ m n : ℝ) *
        ((csz (k * (2 * m + 1)) : ℝ) / 1073741824 *
          ((csz (l * (2 * n + 1)) : ℝ) / 1073741824)) with hStl
  calc |1 / 4 * c1 * c2 * Sre - 1 / 4 * b1 * b2 * Stl| =
      1 / 4 * |c1 * c2 * Sre - b1 * b2 * Stl| := by
        rw [show 1 / 4 * c1 * c2 * Sre - 1 / 4 * b1 * b2 * Stl =
          1 / 4 * (c1 * c2 * Sre - b1 * b2 * Stl) by ring, abs_mul]
        norm_num
    _ ≤ 1 / 4 * (|c1 * c2| * |Sre - Stl| + |c1 * c2 - b1 * b2| * |Stl|) := by
        apply mul_le_mul_of_nonneg_left _ (by norm_num : (0:ℝ) ≤ 1/4)
        calc |c1 * c2 * Sre - b1 * b2 * Stl| =
            |c1 * c2 * (Sre - Stl) + (c1 * c2 - b1 * b2) * Stl| := by
              ring_nf
          _ ≤ |c1 * c2 * (Sre - Stl)| + |(c1 * c2 - b1 * b2) * Stl| :=
              abs_add _ _
          _ = |c1 * c2| * |Sre - Stl| + |c1 * c2 - b1 * b2| * |Stl| := by
              rw [abs_mul (c1 * c2) (Sre - Stl),
                abs_mul (c1 * c2 - b1 * b2) Stl]
    _ ≤ 1 / 4 * (1 * (40252 / 1073741824) + (4 / 1073741824) * 10063) := by
        apply mul_le_mul_of_nonneg_left _ (by norm_num : (0:ℝ) ≤ 1/4)
        apply add_le_add
        · apply mul_le_mul _ hSS (abs_nonneg _) zero_le_one
          rw [abs_mul c1 c2]
          calc |c1| * |c2| ≤ 1 * 1 :=
              mul_le_mul hak.2.1 hal.2.1 (abs_nonneg _) zero_le_one
            _ = 1 := by norm_num
        · apply mul_le_mul _ hSt (abs_nonneg _) (by norm_num)
          calc |c1 * c2 - b1 * b2| =
              |c1 * (c2 - b2) + b2 * (c1 - b1)| := by ring_nf
            _ ≤ |c1 * (c2 - b2)| + |b2 * (c1 - b1)| := abs_add _ _
            _ = |c1| * |c2 - b2| + |b2| * |c1 - b1| := by
                rw [abs_mul c1 (c2 - b2), abs_mul b2 (c1 - b1)]
            _ ≤ 1 * (2 / 1073741824) + 1 * (2 / 1073741824) := by
                apply add_le_add
                · exact mul_le_mul hak.2.1 hal.1 (abs_nonneg _) zero_le_one
                · exact mul_le_mul hal.2.2 hak.1 (abs_nonneg _) zero_le_one
            _ = 4 / 1073741824 := by norm_num
    _ = 20126 / 1073741824 := by norm_num

/-- The scaled-integer approximations of all 64 coefficients match the
reference table (in tenths) with margin `9997/100000`, by computation. -/
theorem dct_int_check : ∀ k : Fin 8, ∀ l : Fin 8,
    10000 * |10 * (aZ k * aZ l * SqZ k l) - 4 * D4 * tz k l| <
      4 * D4 * 9997 := by
  decide

theorem int_check_bridge (A t : ℤ)
    (h : 10000 * |10 * A - 4 * D4 * t| < 4 * D4 * 9997) :
    |(A : ℝ) / (4 * ((D4 : ℤ) : ℝ)) - (t : ℝ) / 10| < 9997 / 100000 := by
  have hD : (0 : ℝ) < ((D4 : ℤ) : ℝ) := by
    rw [D4]
    push_cast
    norm_num
  have hr : (10000 : ℝ) * |10 * (A : ℝ) - 4 * ((D4 : ℤ) : ℝ) * (t : ℝ)| <
      4 * ((D4 : ℤ) : ℝ) * 9997 := by
    exact_mod_cast h
  have heq : (A : ℝ) / (4 * ((D4 : ℤ) : ℝ)) - (t : ℝ) / 10 =
      (10 * (A : ℝ) - 4 * ((D4 : ℤ) : ℝ) * (t : ℝ)) /
        (40 * ((D4 : ℤ) : ℝ)) := by
    field_simp
    ring
  rw [heq, abs_div,
    abs_of_pos (by linarith : (0 : ℝ) < 40 * ((D4 : ℤ) : ℝ))]
  rw [div_lt_iff₀ (by linarith : (0 : ℝ) < 40 * ((D4 : ℤ) : ℝ))]
  linarith

/-- C8: the DCT projection computes the orthonormal 2-D DCT-II —
`C[k,l] = (1/4)·α(k)·α(l)·Σ_{m,n} pixel(m,n)·cos(π(2m+1)k/2N)·cos(π(2n+1)l/2N)`
with `α(0) = 1/√2`, `α(i) = 1` otherwise, for any field, cosine and
constants — and, instantiated with the genuine `Real.cos`, `π` and `√2`
on the canonical 8×8 block, every one of the 64 coefficients (the
top-left one equal to `1257.9` in the table) matches the reference table
within `±0.1`. -/
theorem dct_projection_spec :
    (∀ (K : Type) [LinearOrderedField K], ∀ (cosf : K → K) (piK sqrt2K : K)
      (img : Image) (N k l : ℕ),
      (calc_dct_coefficients sqrt2K img (calc_dct_basis cosf piK N)).entry k l =
        1 / 4 * (if k = 0 then 1 / sqrt2K else 1) *
          (if l = 0 then 1 / sqrt2K else 1) *
          ∑ m ∈ Finset.range img.width, ∑ n ∈ Finset.range img.height,
            ((img.get_pixel m n).headD 0 : K) *
              (cosf (piK * (2 * (m : K) + 1) * (k : K) / (2 * (N : K))) *
                cosf (piK * (2 * (n : K) + 1) * (l : K) / (2 * (N : K))))) ∧
    (∀ k l : ℕ, k < 8 → l < 8 →
      |(calc_dct_coefficients (Real.sqrt 2) refImage
          (calc_dct_basis Real.cos Real.pi 8)).entry k l - (tz k l : ℝ) / 10| <
        1 / 10) := by
  constructor
  · intro K _ cosf piK sqrt2K img N k l
    exact calc_dct_coefficients_formula cosf piK sqrt2K img N k l
  · intro k l hk hl
    have h1 := dct_entry_model_err k l
    have h2 := int_check_bridge (aZ k * aZ l * SqZ k l) (tz k l)
      (dct_int_check ⟨k, hk⟩ ⟨l, hl⟩)
    calc |(calc_dct_coefficients (Real.sqrt 2) refImage
          (calc_dct_basis Real.cos Real.pi 8)).entry k l - (tz k l : ℝ) / 10| ≤
        |(calc_dct_coefficients (Real.sqrt 2) refImage
          (calc_dct_basis Real.cos Real.pi 8)).entry k l -
          ((aZ k * aZ l * SqZ k l : ℤ) : ℝ) / (4 * ((D4 : ℤ) : ℝ))| +
        |((aZ k * aZ l * SqZ k l : ℤ) : ℝ) / (4 * ((D4 : ℤ) : ℝ)) -
          (tz k l : ℝ) / 10| := abs_sub_le _ _ _
      _ < 20126 / 1073741824 + 9997 / 100000 :=
        add_lt_add_of_le_of_lt h1 h2
      _ ≤ 1 / 10 := by norm_num

/-- Witness for `dct_projection_spec`: the formula instantiated over `ℚ`
at a 1×1 image, and the table check at the top-left coefficient
(`1257.9 ± 0.1`). -/
theorem dct_projection_spec_witness :
    ((calc_dct_coefficients (1 : ℚ) (Image.mk 1 1 1 [[7]])
        (calc_dct_basis (fun _ => 1) 0 1)).entry 0 0 =
      1 / 4 * (if (0 : ℕ) = 0 then 1 / (1 : ℚ) else 1) *
        (if (0 : ℕ) = 0 then 1 / (1 : ℚ) else 1) *
        ∑ m ∈ Finset.range (Image.mk 1 1 1 [[7]]).width,
          ∑ n ∈ Finset.range (Image.mk 1 1 1 [[7]]).height,
          (((Image.mk 1 1 1 [[7]]).get_pixel m n).headD 0 : ℚ) *
            ((fun _ => (1 : ℚ)) ((0 : ℚ) * (2 * (m : ℚ) + 1) * ((0 : ℕ) : ℚ) /
                (2 * ((1 : ℕ) : ℚ))) *
              (fun _ => (1 : ℚ)) ((0 : ℚ) * (2 * (n : ℚ) + 1) * ((0 : ℕ) : ℚ) /
                (2 * ((1 : ℕ) : ℚ))))) ∧
    |(calc_dct_coefficients (Real.sqrt 2) refImage
        (calc_dct_basis Real.cos Real.pi 8)).entry 0 0 -
      ((tz 0 0 : ℤ) : ℝ) / 10| < 1 / 10 :=
  ⟨dct_projection_spec.1 ℚ (fun _ => 1) 0 1 (Image.mk 1 1 1 [[7]]) 1 0 0,
    dct_projection_spec.2 0 0 (by norm_num) (by norm_num)⟩

end Imgcmp
